import Mathlib

/-!
# Verification of the textadept-file-diff binding and its diff engine

The repository source under verification is the Lua binding `src/diff.cxx`,
which marshals two strings into `diff_match_patch<std::string>::diff_main`
(with `checklines = false`), applies `diff_cleanupSemantic`, and flattens the
resulting edit script into a Lua table of alternating operation codes and
texts.  The diff engine itself (`diff_match_patch.h`) is not part of the
repository sources, so the engine is modelled from the specification
(sections 2-4 and 6 of the design document); each such definition carries a
doc comment starting with "Modelled from the spec:".  Texts are modelled as
lists of code units (`List Char`), and the wall-clock deadline of the engine
is modelled as recursion fuel, which degrades to the specified two-op
fallback exactly as the spec's deadline does.
-/

/-- A text is a sequence of code units. -/
abbrev Text := List Char

/-- Modelled from the spec: the three edit kinds of an `EditOp`
(`diff_match_patch.h` is not in the repository sources). -/
inductive Op where
  | delete : Op
  | insert : Op
  | equal : Op
deriving DecidableEq, Repr

/-- Modelled from the spec: an edit operation, a tagged pair of kind and text. -/
structure EditOp where
  op : Op
  text : Text
deriving DecidableEq, Repr

/-- Modelled from the spec: a Diff is an ordered finite sequence of edit ops. -/
abbrev Diff := List EditOp

/-- The contribution of one op to the reconstruction of input A
(EQUAL and DELETE ops carry text of A). -/
def sideA (e : EditOp) : Text :=
  if e.op = Op.insert then [] else e.text

/-- The contribution of one op to the reconstruction of input B
(EQUAL and INSERT ops carry text of B). -/
def sideB (e : EditOp) : Text :=
  if e.op = Op.delete then [] else e.text

/-- Concatenation of the EQUAL and DELETE texts of a diff, in order. -/
def textA (d : Diff) : Text := (d.map sideA).flatten

/-- Concatenation of the EQUAL and INSERT texts of a diff, in order. -/
def textB (d : Diff) : Text := (d.map sideB).flatten

/-- Modelled from the spec: the longest common text prefix of two texts
(common-affix stripper, spec section 2 item 1). -/
def commonPre : Text → Text → Text
  | a :: as, b :: bs => if a = b then a :: commonPre as bs else []
  | _, _ => []

/-- Modelled from the spec: the longest common text suffix of two texts. -/
def commonSuf (x y : Text) : Text := (commonPre x.reverse y.reverse).reverse

/-- Modelled from the spec: one merged group of pending DELETE and INSERT text
(spec section 4.5): factor the common text prefix out into a preceding EQUAL,
the common text suffix of the remainder into a following EQUAL, and emit at
most one DELETE and one INSERT, in that order.  Empty parts are dropped by the
subsequent coalescing pass. -/
def mergeGroup (del ins : Text) : Diff :=
  let p := commonPre del ins
  let del1 := del.drop p.length
  let ins1 := ins.drop p.length
  let s := commonSuf del1 ins1
  let del2 := del1.take (del1.length - s.length)
  let ins2 := ins1.take (ins1.length - s.length)
  [⟨Op.equal, p⟩, ⟨Op.delete, del2⟩, ⟨Op.insert, ins2⟩, ⟨Op.equal, s⟩]

/-- Modelled from the spec: the grouping walk of the merge pass (spec section
4.5).  Pending DELETE and INSERT text accumulates since the last nonempty
EQUAL; on hitting a nonempty EQUAL (or the end) the pending group is emitted
through `mergeGroup`.  EQUAL ops with empty text are not group boundaries
(empties are dropped). -/
def mergePass1 : Text → Text → Diff → Diff
  | del, ins, [] => mergeGroup del ins
  | del, ins, e :: rest =>
    match e.op with
    | Op.delete => mergePass1 (del ++ e.text) ins rest
    | Op.insert => mergePass1 del (ins ++ e.text) rest
    | Op.equal =>
      if e.text = [] then mergePass1 del ins rest
      else mergeGroup del ins ++ ⟨Op.equal, e.text⟩ :: mergePass1 [] [] rest

/-- Modelled from the spec: the coalescing pass of the merge (spec section
4.5): drop ops with empty text and merge adjacent ops of the same kind. -/
def coalesce : Diff → Diff
  | [] => []
  | e :: rest =>
    if e.text = [] then coalesce rest
    else
      match coalesce rest with
      | [] => [e]
      | f :: fs => if e.op = f.op then ⟨e.op, e.text ++ f.text⟩ :: fs else e :: f :: fs

/-- Modelled from the spec: the single-edit shift rule of the merge pass (spec
section 4.5): where an EQUAL is entirely a suffix (resp. text prefix) of the
single adjacent edit's text, the edit is shifted over it and the EQUAL is
collapsed into its neighbouring EQUAL.  Returns the rewritten diff and whether
any shift happened. -/
def shiftPassAux : Nat → Diff → Diff × Bool
  | fuel + 1, e1 :: x :: e2 :: rest =>
    if e1.op = Op.equal ∧ x.op ≠ Op.equal ∧ e2.op = Op.equal then
      if e1.text.length ≤ x.text.length ∧
          x.text.drop (x.text.length - e1.text.length) = e1.text then
        let r := shiftPassAux fuel (⟨Op.equal, e1.text ++ e2.text⟩ :: rest)
        (⟨x.op, e1.text ++ x.text.take (x.text.length - e1.text.length)⟩ :: r.1, true)
      else if e2.text.length ≤ x.text.length ∧ x.text.take e2.text.length = e2.text then
        let r := shiftPassAux fuel rest
        (⟨Op.equal, e1.text ++ e2.text⟩ :: ⟨x.op, x.text.drop e2.text.length ++ e2.text⟩ :: r.1,
          true)
      else
        let r := shiftPassAux fuel (x :: e2 :: rest)
        (e1 :: r.1, r.2)
    else
      let r := shiftPassAux fuel (x :: e2 :: rest)
      (e1 :: r.1, r.2)
  | _, d => (d, false)

/-- The shift pass applied with enough fuel for its input: every successful
shift removes one op, so the input length bounds the scan. -/
def shiftPass (d : Diff) : Diff × Bool := shiftPassAux d.length d

/-- Total number of text characters held in a diff. -/
def totalLen (d : Diff) : Nat := (d.map (fun e => e.text.length)).sum

/-- Modelled from the spec: the merge pass iterated with the single-edit shift
rule to a fixpoint (spec section 4.5).  The iteration is fuelled; every exit
path returns a freshly regrouped and coalesced diff. -/
def cleanupMergeAux : Nat → Diff → Diff
  | 0, d => coalesce (mergePass1 [] [] d)
  | fuel + 1, d =>
    let d1 := coalesce (mergePass1 [] [] d)
    let r := shiftPass d1
    if r.2 then cleanupMergeAux fuel r.1 else d1

/-- Modelled from the spec: the merge / normalization pass (spec section 4.5);
`diff_match_patch.h` is not in the repository sources. -/
def diff_cleanupMerge (d : Diff) : Diff := cleanupMergeAux (totalLen d + d.length + 1) d

/-- Modelled from the spec: the boundary-quality score of a seam between two
texts (spec section 4.6): +6 for a non-alphanumeric code unit on either side
of the seam, +5 for whitespace, +4 for a line break, +3 for a blank line
boundary (double line break), else 0.  A text edge counts as a
non-alphanumeric side.  The tiers are checked in the spec's listed order. -/
def boundaryScore (u v : Text) : Nat :=
  let nonAl : Option Char → Bool := fun c =>
    match c with
    | none => true
    | some c => !c.isAlphanum
  let ws : Option Char → Bool := fun c =>
    match c with
    | none => false
    | some c => c.isWhitespace
  let nl : Option Char → Bool := fun c =>
    match c with
    | none => false
    | some c => c = '\n'
  let blankL : Bool := u.reverse.take 2 = ['\n', '\n']
  let blankR : Bool := v.take 2 = ['\n', '\n']
  let c1 := u.getLast?
  let c2 := v.head?
  if nonAl c1 || nonAl c2 then 6
  else if ws c1 || ws c2 then 5
  else if nl c1 || nl c2 then 4
  else if blankL || blankR then 3
  else 0

/-- Modelled from the spec: total boundary score of the configuration
`[EQUAL a, edit t, EQUAL b]`: the sum of the scores of its two seams. -/
def cfgScore (a t b : Text) : Nat := boundaryScore a t + boundaryScore t b

/-- Modelled from the spec: shift the sandwiched edit one code unit to the
left (the previous EQUAL shrinks by its last unit, which must also end the
edit's text). -/
def shiftLeftCfg (a t b : Text) : Option (Text × Text × Text) :=
  match a.getLast?, t.getLast? with
  | some c, some c' =>
    if c = c' then some (a.dropLast, c :: t.dropLast, c :: b) else none
  | _, _ => none

/-- Modelled from the spec: shift the sandwiched edit one code unit to the
right (the next EQUAL shrinks by its first unit, which must also start the
edit's text). -/
def shiftRightCfg (a t b : Text) : Option (Text × Text × Text) :=
  match b.head?, t.head? with
  | some c, some c' =>
    if c = c' then some (a ++ [c], t.drop 1 ++ [c], b.drop 1) else none
  | _, _ => none

/-- Modelled from the spec: score both ways the sandwiched edit could be
shifted and adopt a shift only when it strictly improves the summed seam
score; on a tie between the two improving shifts the left one is preferred
(spec section 4.6, boundary alignment). -/
def bestShift (a t b : Text) : Text × Text × Text :=
  let cur := cfgScore a t b
  let cl := shiftLeftCfg a t b
  let cr := shiftRightCfg a t b
  let sl := match cl with
    | some c => cfgScore c.1 c.2.1 c.2.2
    | none => 0
  let sr := match cr with
    | some c => cfgScore c.1 c.2.1 c.2.2
    | none => 0
  if sl > cur ∧ sl ≥ sr then
    match cl with
    | some c => c
    | none => (a, t, b)
  else if sr > cur then
    match cr with
    | some c => c
    | none => (a, t, b)
  else (a, t, b)

/-- Modelled from the spec: the boundary-alignment sub-pass of semantic
cleanup (spec section 4.6): walk the diff and realign every single edit
sandwiched between two EQUAL ops using `bestShift`. -/
def alignOnceAux : Nat → Diff → Diff
  | fuel + 1, e1 :: x :: e2 :: rest =>
    if e1.op = Op.equal ∧ x.op ≠ Op.equal ∧ e2.op = Op.equal then
      let c := bestShift e1.text x.text e2.text
      ⟨Op.equal, c.1⟩ :: ⟨x.op, c.2.1⟩ :: alignOnceAux fuel (⟨Op.equal, c.2.2⟩ :: rest)
    else e1 :: alignOnceAux fuel (x :: e2 :: rest)
  | _, d => d

/-- The alignment walk applied with enough fuel for its input. -/
def alignOnce (d : Diff) : Diff := alignOnceAux d.length d

/-- Modelled from the spec: the short-equality elimination sub-pass of
semantic cleanup (spec section 4.6): an EQUAL with edits on both sides that is
shorter than the largest adjacent edit and shorter than the fixed threshold 4
is absorbed into the surrounding edits as a combined DELETE+INSERT. -/
def elimShortEqAux : Nat → Diff → Diff
  | fuel + 1, p :: e :: n :: rest =>
    if e.op = Op.equal ∧ p.op ≠ Op.equal ∧ n.op ≠ Op.equal ∧
        e.text.length < max p.text.length n.text.length ∧ e.text.length < 4 then
      p :: ⟨Op.delete, e.text⟩ :: ⟨Op.insert, e.text⟩ :: elimShortEqAux fuel (n :: rest)
    else p :: elimShortEqAux fuel (e :: n :: rest)
  | _, d => d

/-- The elimination walk applied with enough fuel for its input. -/
def elimShortEq (d : Diff) : Diff := elimShortEqAux d.length d

/-- Modelled from the spec: semantic cleanup (spec section 4.6):
boundary alignment, then short-equality elimination, then a re-run of the
merge pass to restore canonical form.  `diff_match_patch.h` is not in the
repository sources. -/
def diff_cleanupSemantic (d : Diff) : Diff :=
  diff_cleanupMerge (elimShortEq (alignOnce d))

/-- Does `sub` start `l`? -/
def startsWithT (sub l : Text) : Bool := l.take sub.length = sub

/-- Modelled from the spec: first index at which `sub` occurs inside `l`
(substring-containment shortcut, spec section 4.2). -/
def indexOfSub (sub : Text) : Text → Option Nat
  | [] => if sub = [] then some 0 else none
  | c :: rest =>
    if startsWithT sub (c :: rest) then some 0
    else (indexOfSub sub rest).map (· + 1)

/-- Modelled from the spec: list of all indices at which `sub` occurs in `l`. -/
def allOccurrences (sub : Text) : Text → List Nat
  | [] => if sub = [] then [0] else []
  | c :: rest =>
    let tailOcc := (allOccurrences sub rest).map (· + 1)
    if startsWithT sub (c :: rest) then 0 :: tailOcc else tailOcc

/-- Modelled from the spec: the bidirectional extension of a candidate
half-match anchor: at long-position `i` and short-position `j`, extend the
match backwards over a common text suffix of the two prefixes and forwards
over a common text prefix of the two suffixes.  Returns
(long index, short index, length) of the extended common substring. -/
def extendAnchor (lng sht : Text) (i j : Nat) : Nat × Nat × Nat :=
  let back := (commonSuf (lng.take i) (sht.take j)).length
  let fwd := (commonPre (lng.drop i) (sht.drop j)).length
  (i - back, j - back, back + fwd)

/-- Modelled from the spec: the best extended match anchored at a seed taken
at position `i` of the longer text (spec section 4.3).  All occurrences of the
seed in the shorter text are tried; the longest overall match wins, and among
equal-length matches the earliest (shortest surrounding prefixes) wins. -/
def halfMatchAt (lng sht : Text) (i : Nat) : Option (Nat × Nat × Nat) :=
  let seed := (lng.drop i).take (lng.length / 4)
  (allOccurrences seed sht).foldl
    (fun best j =>
      let cand := extendAnchor lng sht i j
      match best with
      | none => some cand
      | some b => if cand.2.2 > b.2.2 then some cand else some b)
    none

/-- Modelled from the spec: the better of the two seed anchors, preferring the
longer extended match and, on a tie, the first (spec section 4.3). -/
def bestHalfAnchor (lng sht : Text) : Option (Nat × Nat × Nat) :=
  match halfMatchAt lng sht ((lng.length + 3) / 4),
      halfMatchAt lng sht ((lng.length + 1) / 2) with
  | none, none => none
  | some x, none => some x
  | none, some y => some y
  | some x, some y => if y.2.2 > x.2.2 then some y else some x

/-- Modelled from the spec: package the five half-match components
(longer-prefix, longer-suffix, shorter-prefix, shorter-suffix, common-middle),
swapping the roles when the second input was the longer one.  The equality
guard on the two slices makes the recombination property explicit. -/
def halfMatchSplit (lng sht : Text) (i j len : Nat) (swapped : Bool) :
    Option (Text × Text × Text × Text × Text) :=
  let mid := (lng.drop i).take len
  if mid = (sht.drop j).take len then
    if swapped then some (sht.take j, sht.drop (j + len), lng.take i, lng.drop (i + len), mid)
    else some (lng.take i, lng.drop (i + len), sht.take j, sht.drop (j + len), mid)
  else none

/-- Modelled from the spec: the half-match heuristic (spec section 4.3):
applied only when the longer input exceeds 10 code units and the shorter is at
least a quarter of the longer; seeds are taken at one quarter and one half of
the longer input and the winning extended match must span at least half of the
longer input.  Returns (A-prefix, A-suffix, B-prefix, B-suffix,
common-middle), or none. -/
def diff_halfMatch (a b : Text) : Option (Text × Text × Text × Text × Text) :=
  if b.length > a.length then
    if b.length > 10 ∧ a.length * 4 ≥ b.length then
      match bestHalfAnchor b a with
      | some (i, j, len) =>
        if len * 2 ≥ b.length then halfMatchSplit b a i j len true else none
      | none => none
    else none
  else
    if a.length > 10 ∧ b.length * 4 ≥ a.length then
      match bestHalfAnchor a b with
      | some (i, j, len) =>
        if len * 2 ≥ a.length then halfMatchSplit a b i j len false else none
      | none => none
    else none

/-- Modelled from the spec: the diagonals k in [-d..d] step 2 visited at
D-path length `d` (spec section 4.4). -/
def kRange (d : Nat) : List Int := (List.range (d + 1)).map (fun i => -(d : Int) + 2 * i)

/-- Modelled from the spec: snake along matching code units in the forward
direction from (x, y). -/
def snakeFwd (a b : Text) (x y : Int) : Int × Int :=
  if 0 ≤ x ∧ 0 ≤ y then
    let len := (commonPre (a.drop x.toNat) (b.drop y.toNat)).length
    (x + len, y + len)
  else (x, y)

/-- Modelled from the spec: snake along matching code units in the reverse
direction (coordinates measured from the ends of the inputs). -/
def snakeRev (a b : Text) (x y : Int) : Int × Int :=
  if 0 ≤ x ∧ 0 ≤ y then
    let len := (commonPre (a.reverse.drop x.toNat) (b.reverse.drop y.toNat)).length
    (x + len, y + len)
  else (x, y)

/-- Modelled from the spec: one forward pass of the bisect engine over the
diagonals of the current `d`, extending furthest-reaching D-paths and checking
for overlap with the reverse search when delta is odd (spec section 4.4). -/
def fwdK (a b : Text) (n delta : Int) (off : Nat) (front : Bool) (d : Nat) :
    List Int → Array Int → Array Int → Array Int × Option (Nat × Nat)
  | [], v1, _ => (v1, none)
  | k :: ks, v1, v2 =>
    let ko := (Int.ofNat off + k).toNat
    let x0 : Int :=
      if k = -(d : Int) ∨ (k ≠ (d : Int) ∧ v1.getD (ko - 1) (-1) < v1.getD (ko + 1) (-1)) then
        v1.getD (ko + 1) (-1)
      else v1.getD (ko - 1) (-1) + 1
    let p := snakeFwd a b x0 (x0 - k)
    let v1' := v1.setD ko p.1
    let k2o : Int := Int.ofNat off + delta - k
    if front ∧ 0 ≤ k2o ∧ k2o < Int.ofNat (2 * off + 2) ∧ v2.getD k2o.toNat (-1) ≠ -1 then
      if p.1 ≥ n - v2.getD k2o.toNat (-1) then (v1', some (p.1.toNat, p.2.toNat))
      else fwdK a b n delta off front d ks v1' v2
    else fwdK a b n delta off front d ks v1' v2

/-- Modelled from the spec: one reverse pass of the bisect engine, anchored at
(N, M), checking for overlap with the forward search when delta is even (spec
section 4.4). -/
def revK (a b : Text) (n delta : Int) (off : Nat) (front : Bool) (d : Nat) :
    List Int → Array Int → Array Int → Array Int × Option (Nat × Nat)
  | [], _, v2 => (v2, none)
  | k :: ks, v1, v2 =>
    let ko := (Int.ofNat off + k).toNat
    let x0 : Int :=
      if k = -(d : Int) ∨ (k ≠ (d : Int) ∧ v2.getD (ko - 1) (-1) < v2.getD (ko + 1) (-1)) then
        v2.getD (ko + 1) (-1)
      else v2.getD (ko - 1) (-1) + 1
    let p := snakeRev a b x0 (x0 - k)
    let v2' := v2.setD ko p.1
    let k1o : Int := Int.ofNat off + delta - k
    if (!front) ∧ 0 ≤ k1o ∧ k1o < Int.ofNat (2 * off + 2) ∧ v1.getD k1o.toNat (-1) ≠ -1 then
      let x1 : Int := v1.getD k1o.toNat (-1)
      if x1 ≥ n - p.1 then (v2', some (x1.toNat, (Int.ofNat off + x1 - k1o).toNat))
      else revK a b n delta off front d ks v1 v2'
    else revK a b n delta off front d ks v1 v2'

/-- Modelled from the spec: the D-loop of the bisect engine; the fuel plays
the role of the loop bound d ≤ MAX (spec section 4.4).  Returns the midpoint
(x, y) if the two searches overlap, none otherwise. -/
def bisectD (a b : Text) (n delta : Int) (off : Nat) (front : Bool) :
    Nat → Nat → Array Int → Array Int → Option (Nat × Nat)
  | 0, _, _, _ => none
  | fuel + 1, d, v1, v2 =>
    let rf := fwdK a b n delta off front d (kRange d) v1 v2
    match rf.2 with
    | some r => some r
    | none =>
      let rr := revK a b n delta off front d (kRange d) rf.1 v2
      match rr.2 with
      | some r => some r
      | none => bisectD a b n delta off front fuel (d + 1) rf.1 rr.1

/-- Modelled from the spec: the bisect engine (Myers shortest-edit-script
search with midpoint split, spec section 4.4); `diff_match_patch.h` is not in
the repository sources.  The V-arrays have length 2(N+M)+2 and the D-loop
runs to MAX = N+M. -/
def diff_bisect (a b : Text) : Option (Nat × Nat) :=
  let n := a.length
  let m := b.length
  let off := n + m
  let size := 2 * off + 2
  let v1 := (Array.mkArray size (-1 : Int)).setD (off + 1) 0
  let v2 := (Array.mkArray size (-1 : Int)).setD (off + 1) 0
  let delta : Int := (n : Int) - (m : Int)
  let front := delta % 2 != 0
  bisectD a b (n : Int) delta off front (off + 1) 0 v1 v2

/-- Drop ops with empty text ("omit empty parts", spec section 4.2). -/
def dropEmpties (d : Diff) : Diff := d.filter (fun e => !e.text.isEmpty)

/-- Modelled from the spec: the tail of the shortcut resolver (spec section
4.2) once the containment shortcut has failed: the length-1 shortcut, the
half-match heuristic, and finally the bisect engine with its two-op fallback.
`rec` is the recursive diff applied to subproblems. -/
def diffAfterContain (rec : Text → Text → Diff) (a b : Text) : Diff :=
  if min a.length b.length = 1 then [⟨Op.delete, a⟩, ⟨Op.insert, b⟩]
  else
    match diff_halfMatch a b with
    | some (a1, a2, b1, b2, m) => rec a1 b1 ++ ⟨Op.equal, m⟩ :: rec a2 b2
    | none =>
      match diff_bisect a b with
      | some (x, y) => rec (a.take x) (b.take y) ++ rec (a.drop x) (b.drop y)
      | none => [⟨Op.delete, a⟩, ⟨Op.insert, b⟩]

/-- Modelled from the spec: the shortcut and decomposition resolver (spec
section 4.2), parameterized by the recursive diff `rec` applied to
subproblems.  Handles empty inputs and substring containment, then hands off
to `diffAfterContain`. -/
def diffComputeWith (rec : Text → Text → Diff) (a b : Text) : Diff :=
  if a = [] then (if b = [] then [] else [⟨Op.insert, b⟩])
  else if b = [] then [⟨Op.delete, a⟩]
  else if a.length ≤ b.length then
    match indexOfSub a b with
    | some i =>
      dropEmpties [⟨Op.insert, b.take i⟩, ⟨Op.equal, a⟩, ⟨Op.insert, b.drop (i + a.length)⟩]
    | none => diffAfterContain rec a b
  else
    match indexOfSub b a with
    | some i =>
      dropEmpties [⟨Op.delete, a.take i⟩, ⟨Op.equal, b⟩, ⟨Op.delete, a.drop (i + b.length)⟩]
    | none => diffAfterContain rec a b

/-- Modelled from the spec: the common text suffix of the two inputs after the
common text prefix has been stripped (spec section 4.1 step 2). -/
def trimSuf (a b : Text) : Text :=
  commonSuf (a.drop (commonPre a b).length) (b.drop (commonPre a b).length)

/-- Modelled from the spec: the residual middle of input A after stripping the
common affixes (spec section 4.1 step 2). -/
def trimA (a b : Text) : Text :=
  (a.drop (commonPre a b).length).take
    ((a.drop (commonPre a b).length).length - (trimSuf a b).length)

/-- Modelled from the spec: the residual middle of input B after stripping the
common affixes (spec section 4.1 step 2). -/
def trimB (a b : Text) : Text :=
  (b.drop (commonPre a b).length).take
    ((b.drop (commonPre a b).length).length - (trimSuf a b).length)

/-- Modelled from the spec: strip the common affixes, diff the residual
middles, re-wrap with the stripped EQUAL affixes, and run the merge pass (spec
section 4.1 steps 2-5). -/
def diffStripped (rec : Text → Text → Diff) (a b : Text) : Diff :=
  diff_cleanupMerge
    ((if commonPre a b = [] then [] else [⟨Op.equal, commonPre a b⟩]) ++
      diffComputeWith rec (trimA a b) (trimB a b) ++
      (if trimSuf a b = [] then [] else [⟨Op.equal, trimSuf a b⟩]))

/-- Modelled from the spec: the top-level diff operation (spec section 4.1):
equality shortcut, then affix stripping and recursive decomposition.  The fuel
models the spec's deadline: on exhaustion the current subproblem degrades to
the two-op fallback, exactly as the deadline does. -/
def diffMainAux : Nat → Text → Text → Diff
  | 0, a, b =>
    (if a = [] then [] else [⟨Op.delete, a⟩]) ++ (if b = [] then [] else [⟨Op.insert, b⟩])
  | fuel + 1, a, b =>
    if a = b then (if a = [] then [] else [⟨Op.equal, a⟩])
    else diffStripped (fun x y => diffMainAux fuel x y) a b

/-- Modelled from the spec: `diff_main` (spec sections 4.1 and 6).  The
binding always passes `checklines = false`; the line-mode optimization of the
true path is an internal optimization that the spec requires to produce the
same canonical output shape, and both paths are modelled by the character-
level pipeline.  The default fuel |A| + |B| + 1 plays the role of an
unbounded deadline: it always suffices for the recursion, which splits texts
strictly. -/
def diff_main (a b : Text) (checklines : Bool) : Diff :=
  diffMainAux (a.length + b.length + 1) a b

/-- The diff operation as invoked by the binding: `diff_main` with
`checklines = false` followed by semantic cleanup (src/diff.cxx lines 14-16). -/
def diffOp (a b : Text) : Diff := diff_cleanupSemantic (diff_main a b false)

/-- A Lua value pushed into the result table by the binding
(src/diff.cxx lines 20-21): numbers for op codes, strings for texts. -/
inductive LuaValue where
  | num : Int → LuaValue
  | str : Text → LuaValue
deriving DecidableEq, Repr

/-- Modelled from the spec: the numeric op code of each edit kind pushed by
`lua_pushnumber(L, diff.operation)` — the `Operation` enum values live in
`diff_match_patch.h`, which is not in the repository sources; the spec fixes
them as −1 for DELETE, 0 for EQUAL, +1 for INSERT. -/
def opCode : Op → Int
  | Op.delete => -1
  | Op.equal => 0
  | Op.insert => 1

/-- The flattening loop of the binding (src/diff.cxx lines 19-22): for each
edit op in order, push its op code and then its text. -/
def pushDiffs : Diff → List LuaValue
  | [] => []
  | e :: rest => LuaValue.num (opCode e.op) :: LuaValue.str e.text :: pushDiffs rest

/-- The value the binding returns to the host for two provided strings
(src/diff.cxx lines 12-23). -/
def luaDiffResult (a b : Text) : List LuaValue :=
  pushDiffs (diff_cleanupSemantic (diff_main a b false))

/-- The error raised by the binding on invalid arguments. -/
inductive LuaError where
  | invalidArgument : LuaError
deriving DecidableEq, Repr

/-- Modelled from the spec: `luaL_checkstring` (called by the binding at
src/diff.cxx line 15) fails with `InvalidArgument` when the argument is null
or not provided, and yields the string otherwise. -/
def luaL_checkstring : Option Text → Except LuaError Text
  | some s => Except.ok s
  | none => Except.error LuaError.invalidArgument

/-- The full binding `diff()` (src/diff.cxx lines 12-24): check both string
arguments, diff them with `checklines = false`, apply semantic cleanup and
flatten the result. -/
def diffBinding (arg1 arg2 : Option Text) : Except LuaError (List LuaValue) := do
  let a ← luaL_checkstring arg1
  let b ← luaL_checkstring arg2
  return pushDiffs (diff_cleanupSemantic (diff_main a b false))

/-- The library entry point `luaopen_diff` (src/diff.cxx lines 27-29): it
registers the single diff function and returns one value. -/
def luaopen_diff : (Option Text → Option Text → Except LuaError (List LuaValue)) × Nat :=
  (diffBinding, 1)

/-- The platform entry point `luaopen_file_diff_diff` (src/diff.cxx lines
32-34): delegates to `luaopen_diff`. -/
def luaopen_file_diff_diff : (Option Text → Option Text → Except LuaError (List LuaValue)) × Nat :=
  luaopen_diff

/-- The platform entry point `luaopen_file_diff_diffosx` (src/diff.cxx lines
35-37): delegates to `luaopen_diff`. -/
def luaopen_file_diff_diffosx :
    (Option Text → Option Text → Except LuaError (List LuaValue)) × Nat :=
  luaopen_diff

/-- A sequence of binding invocations, each with its own pair of inputs;
the binding holds no state across invocations (a fresh `dmp` object per call,
src/diff.cxx line 13). -/
def runInvocations (calls : List (Text × Text)) : List (List LuaValue) :=
  calls.map (fun c => luaDiffResult c.1 c.2)

/-- The forbidden adjacency of spec section 3: a DELETE adjacent to an INSERT
must precede it, i.e. an INSERT is never immediately followed by a DELETE. -/
def noID (x y : EditOp) : Prop := ¬(x.op = Op.insert ∧ y.op = Op.delete)

/-- A canonical edit script in the sense of spec section 3: no empty op text,
no two adjacent ops of the same kind, and DELETE before INSERT wherever the
two are adjacent. -/
def Canonical (d : Diff) : Prop :=
  (∀ e ∈ d, e.text ≠ []) ∧ List.Chain' (fun x y => x.op ≠ y.op) d ∧ List.Chain' noID d

/-- Ops with empty text, dropped by the coalescing pass. -/
def filterNE (d : Diff) : Diff := d.filter (fun e => !e.text.isEmpty)

/-- The flat alternating [op_code, text, op_code, text, ...] shape of the
host-facing encoding (spec section 6). -/
def flatEncoding (d : Diff) : List LuaValue :=
  (d.map (fun e => [LuaValue.num (opCode e.op), LuaValue.str e.text])).flatten

@[simp]
theorem textA_nil : textA [] = [] := rfl

theorem textA_cons (e : EditOp) (d : Diff) : textA (e :: d) = sideA e ++ textA d := by
  simp [textA]

theorem textA_append (d₁ d₂ : Diff) : textA (d₁ ++ d₂) = textA d₁ ++ textA d₂ := by
  simp [textA]

@[simp]
theorem textB_nil : textB [] = [] := rfl

theorem textB_cons (e : EditOp) (d : Diff) : textB (e :: d) = sideB e ++ textB d := by
  simp [textB]

theorem textB_append (d₁ d₂ : Diff) : textB (d₁ ++ d₂) = textB d₁ ++ textB d₂ := by
  simp [textB]

theorem commonPre_length_comm : ∀ x y : Text, (commonPre x y).length = (commonPre y x).length := by
  intro x
  induction x with
  | nil => intro y; cases y <;> simp [commonPre]
  | cons a as ih =>
    intro y
    cases y with
    | nil => simp [commonPre]
    | cons b bs =>
      by_cases h : a = b
      · subst h; simp [commonPre, ih bs]
      · have h' : ¬b = a := fun hh => h hh.symm
        simp [commonPre, h, h']

theorem commonPre_append_left : ∀ x y : Text, commonPre x y ++ x.drop (commonPre x y).length = x := by
  intro x
  induction x with
  | nil => intro y; cases y <;> simp [commonPre]
  | cons a as ih =>
    intro y
    cases y with
    | nil => simp [commonPre]
    | cons b bs =>
      by_cases h : a = b
      · simp [commonPre, h, ih bs]
      · simp [commonPre, h]

theorem commonPre_append_right : ∀ x y : Text, commonPre x y ++ y.drop (commonPre x y).length = y := by
  intro x
  induction x with
  | nil => intro y; cases y <;> simp [commonPre]
  | cons a as ih =>
    intro y
    cases y with
    | nil => simp [commonPre]
    | cons b bs =>
      by_cases h : a = b
      · subst h; simp [commonPre, ih bs]
      · simp [commonPre, h]

theorem take_len_app (l₁ l₂ : Text) : (l₁ ++ l₂).take l₁.length = l₁ := by
  induction l₁ with
  | nil => simp
  | cons a as ih => simp [ih]

theorem drop_len_app (l₁ l₂ : Text) : (l₁ ++ l₂).drop l₁.length = l₂ := by
  induction l₁ with
  | nil => simp
  | cons a as ih => simp [ih]

/-- The common suffix really is a suffix of the left argument, and taking the
rest from the front recovers the whole text. -/
theorem commonSuf_append_left (x y : Text) :
    x.take (x.length - (commonSuf x y).length) ++ commonSuf x y = x := by
  have hx : ∃ t, t ++ commonSuf x y = x := by
    refine ⟨(x.reverse.drop (commonPre x.reverse y.reverse).length).reverse, ?_⟩
    have := congrArg List.reverse (commonPre_append_left x.reverse y.reverse)
    simpa [commonSuf, List.reverse_append] using this
  generalize commonSuf x y = s at hx ⊢
  obtain ⟨t, ht⟩ := hx
  subst ht
  have hl : (t ++ s).length - s.length = t.length := by simp
  rw [hl, take_len_app]

theorem commonSuf_append_right (x y : Text) :
    y.take (y.length - (commonSuf x y).length) ++ commonSuf x y = y := by
  have hy : ∃ t, t ++ commonSuf x y = y := by
    refine ⟨(y.reverse.drop (commonPre x.reverse y.reverse).length).reverse, ?_⟩
    have := congrArg List.reverse (commonPre_append_right x.reverse y.reverse)
    simpa [commonSuf, List.reverse_append] using this
  generalize commonSuf x y = s at hy ⊢
  obtain ⟨t, ht⟩ := hy
  subst ht
  have hl : (t ++ s).length - s.length = t.length := by simp
  rw [hl, take_len_app]

theorem indexOfSub_spec (sub : Text) :
    ∀ l i, indexOfSub sub l = some i → (l.drop i).take sub.length = sub := by
  intro l
  induction l with
  | nil =>
    intro i h
    simp only [indexOfSub] at h
    by_cases hs : sub = []
    · simp [hs] at h ⊢
    · simp [hs] at h
  | cons c rest ih =>
    intro i h
    simp only [indexOfSub] at h
    by_cases hstart : startsWithT sub (c :: rest) = true
    · simp [hstart] at h
      subst h
      simpa [startsWithT] using hstart
    · simp [hstart] at h
      obtain ⟨j, hj, hji⟩ := h
      subst hji
      simpa using ih j hj


theorem sideA_equal (t : Text) : sideA ⟨Op.equal, t⟩ = t := rfl

theorem sideA_del (t : Text) : sideA ⟨Op.delete, t⟩ = t := rfl

theorem sideA_ins (t : Text) : sideA ⟨Op.insert, t⟩ = [] := rfl

theorem sideB_equal (t : Text) : sideB ⟨Op.equal, t⟩ = t := rfl

theorem sideB_del (t : Text) : sideB ⟨Op.delete, t⟩ = [] := rfl

theorem sideB_ins (t : Text) : sideB ⟨Op.insert, t⟩ = t := rfl

theorem textA_mergeGroup (del ins : Text) : textA (mergeGroup del ins) = del := by
  have h1 := commonPre_append_left del ins
  have h2 := commonSuf_append_left (del.drop (commonPre del ins).length)
      (ins.drop (commonPre del ins).length)
  simp only [mergeGroup, textA_cons, textA_nil, sideA_equal, sideA_del, sideA_ins,
    List.append_nil, List.nil_append, List.append_assoc]
  rw [h2, h1]

theorem textB_mergeGroup (del ins : Text) : textB (mergeGroup del ins) = ins := by
  have h1 := commonPre_append_right del ins
  have h2 := commonSuf_append_right (del.drop (commonPre del ins).length)
      (ins.drop (commonPre del ins).length)
  simp only [mergeGroup, textB_cons, textB_nil, sideB_equal, sideB_del, sideB_ins,
    List.append_nil, List.nil_append, List.append_assoc]
  rw [h2, h1]

theorem textA_mergePass1 :
    ∀ (d : Diff) (del ins : Text), textA (mergePass1 del ins d) = del ++ textA d := by
  intro d
  induction d with
  | nil => intro del ins; simp [mergePass1, textA_mergeGroup, textA_nil]
  | cons e rest ih =>
    intro del ins
    match he : e.op with
    | Op.delete =>
      have hstep : mergePass1 del ins (e :: rest) = mergePass1 (del ++ e.text) ins rest := by
        simp [mergePass1, he]
      rw [hstep, ih, textA_cons]
      simp [sideA, he, List.append_assoc]
    | Op.insert =>
      have hstep : mergePass1 del ins (e :: rest) = mergePass1 del (ins ++ e.text) rest := by
        simp [mergePass1, he]
      rw [hstep, ih, textA_cons]
      simp [sideA, he]
    | Op.equal =>
      by_cases ht : e.text = []
      · have hstep : mergePass1 del ins (e :: rest) = mergePass1 del ins rest := by
          simp [mergePass1, he, ht]
        rw [hstep, ih, textA_cons]
        simp [sideA, ht]
      · have hstep : mergePass1 del ins (e :: rest)
            = mergeGroup del ins ++ ⟨Op.equal, e.text⟩ :: mergePass1 [] [] rest := by
          simp [mergePass1, he, ht]
        rw [hstep, textA_append, textA_mergeGroup, textA_cons, ih, textA_cons]
        simp [sideA, he]

theorem textB_mergePass1 :
    ∀ (d : Diff) (del ins : Text), textB (mergePass1 del ins d) = ins ++ textB d := by
  intro d
  induction d with
  | nil => intro del ins; simp [mergePass1, textB_mergeGroup, textB_nil]
  | cons e rest ih =>
    intro del ins
    match he : e.op with
    | Op.delete =>
      have hstep : mergePass1 del ins (e :: rest) = mergePass1 (del ++ e.text) ins rest := by
        simp [mergePass1, he]
      rw [hstep, ih, textB_cons]
      simp [sideB, he]
    | Op.insert =>
      have hstep : mergePass1 del ins (e :: rest) = mergePass1 del (ins ++ e.text) rest := by
        simp [mergePass1, he]
      rw [hstep, ih, textB_cons]
      simp [sideB, he, List.append_assoc]
    | Op.equal =>
      by_cases ht : e.text = []
      · have hstep : mergePass1 del ins (e :: rest) = mergePass1 del ins rest := by
          simp [mergePass1, he, ht]
        rw [hstep, ih, textB_cons]
        simp [sideB, ht]
      · have hstep : mergePass1 del ins (e :: rest)
            = mergeGroup del ins ++ ⟨Op.equal, e.text⟩ :: mergePass1 [] [] rest := by
          simp [mergePass1, he, ht]
        rw [hstep, textB_append, textB_mergeGroup, textB_cons, ih, textB_cons]
        simp [sideB, he]

theorem textA_coalesce : ∀ d : Diff, textA (coalesce d) = textA d := by
  intro d
  induction d with
  | nil => rfl
  | cons e rest ih =>
    rw [textA_cons]
    by_cases ht : e.text = []
    · have hA : sideA e = [] := by simp [sideA, ht]
      simp [coalesce, ht, ih, hA]
    · simp only [coalesce, if_neg ht]
      match hc : coalesce rest with
      | [] =>
        have h0 : textA rest = [] := by rw [← ih, hc, textA_nil]
        rw [h0, textA_cons, textA_nil]
      | f :: fs =>
        have hrest : sideA f ++ textA fs = textA rest := by rw [← ih, hc, textA_cons]
        show textA (if e.op = f.op then (⟨e.op, e.text ++ f.text⟩ : EditOp) :: fs
            else e :: f :: fs) = sideA e ++ textA rest
        by_cases hop : e.op = f.op
        · rw [if_pos hop, textA_cons]
          have hside : sideA ⟨e.op, e.text ++ f.text⟩ = sideA e ++ sideA f := by
            by_cases hi : e.op = Op.insert
            · have hfi : f.op = Op.insert := hop ▸ hi
              simp [sideA, hi, hfi]
            · have hfi : ¬f.op = Op.insert := fun hh => hi (hop.trans hh)
              simp [sideA, hi, hfi]
          rw [hside, List.append_assoc, hrest]
        · rw [if_neg hop, textA_cons, textA_cons, hrest]

theorem textB_coalesce : ∀ d : Diff, textB (coalesce d) = textB d := by
  intro d
  induction d with
  | nil => rfl
  | cons e rest ih =>
    rw [textB_cons]
    by_cases ht : e.text = []
    · have hB : sideB e = [] := by simp [sideB, ht]
      simp [coalesce, ht, ih, hB]
    · simp only [coalesce, if_neg ht]
      match hc : coalesce rest with
      | [] =>
        have h0 : textB rest = [] := by rw [← ih, hc, textB_nil]
        rw [h0, textB_cons, textB_nil]
      | f :: fs =>
        have hrest : sideB f ++ textB fs = textB rest := by rw [← ih, hc, textB_cons]
        show textB (if e.op = f.op then (⟨e.op, e.text ++ f.text⟩ : EditOp) :: fs
            else e :: f :: fs) = sideB e ++ textB rest
        by_cases hop : e.op = f.op
        · rw [if_pos hop, textB_cons]
          have hside : sideB ⟨e.op, e.text ++ f.text⟩ = sideB e ++ sideB f := by
            by_cases hi : e.op = Op.delete
            · have hfi : f.op = Op.delete := hop ▸ hi
              simp [sideB, hi, hfi]
            · have hfi : ¬f.op = Op.delete := fun hh => hi (hop.trans hh)
              simp [sideB, hi, hfi]
          rw [hside, List.append_assoc, hrest]
        · rw [if_neg hop, textB_cons, textB_cons, hrest]

theorem sideA_of_ne (e : EditOp) (h : ¬e.op = Op.insert) : sideA e = e.text := by
  simp [sideA, h]

theorem sideA_of_eq (e : EditOp) (h : e.op = Op.insert) : sideA e = [] := by
  simp [sideA, h]

theorem sideB_of_ne (e : EditOp) (h : ¬e.op = Op.delete) : sideB e = e.text := by
  simp [sideB, h]

theorem sideB_of_eq (e : EditOp) (h : e.op = Op.delete) : sideB e = [] := by
  simp [sideB, h]

theorem textA_shiftPassAux (fuel : Nat) (d : Diff) :
    textA (shiftPassAux fuel d).1 = textA d := by
  induction fuel, d using shiftPassAux.induct with
  | case1 fuel e1 x e2 rest hg hL ih =>
    obtain ⟨hg1, hg2, hg3⟩ := hg
    have hx : x.text = x.text.take (x.text.length - e1.text.length) ++ e1.text := by
      conv_lhs => rw [← List.take_append_drop (x.text.length - e1.text.length) x.text]
      rw [hL.2]
    simp only [shiftPassAux, if_pos (⟨hg1, hg2, hg3⟩ : e1.op = Op.equal ∧ x.op ≠ Op.equal ∧
      e2.op = Op.equal), if_pos hL]
    show textA (⟨x.op, e1.text ++ x.text.take (x.text.length - e1.text.length)⟩ ::
        (shiftPassAux fuel (⟨Op.equal, e1.text ++ e2.text⟩ :: rest)).1)
      = textA (e1 :: x :: e2 :: rest)
    rw [textA_cons, ih, textA_cons, sideA_equal, textA_cons, textA_cons, textA_cons,
      sideA_of_ne e1 (by rw [hg1]; decide), sideA_of_ne e2 (by rw [hg3]; decide)]
    by_cases hxi : x.op = Op.insert
    · rw [sideA_of_eq x hxi,
        sideA_of_eq ⟨x.op, e1.text ++ x.text.take (x.text.length - e1.text.length)⟩ hxi]
      simp [List.append_assoc]
    · rw [sideA_of_ne x hxi,
        sideA_of_ne ⟨x.op, e1.text ++ x.text.take (x.text.length - e1.text.length)⟩ hxi]
      conv_rhs => rw [hx]
      simp [List.append_assoc]
  | case2 fuel e1 x e2 rest hg hnL hR ih =>
    obtain ⟨hg1, hg2, hg3⟩ := hg
    have hx : x.text = e2.text ++ x.text.drop e2.text.length := by
      conv_lhs => rw [← List.take_append_drop e2.text.length x.text]
      rw [hR.2]
    simp only [shiftPassAux, if_pos (⟨hg1, hg2, hg3⟩ : e1.op = Op.equal ∧ x.op ≠ Op.equal ∧
      e2.op = Op.equal), if_neg hnL, if_pos hR]
    show textA (⟨Op.equal, e1.text ++ e2.text⟩ ::
        ⟨x.op, x.text.drop e2.text.length ++ e2.text⟩ :: (shiftPassAux fuel rest).1)
      = textA (e1 :: x :: e2 :: rest)
    rw [textA_cons, sideA_equal, textA_cons, ih, textA_cons, textA_cons, textA_cons,
      sideA_of_ne e1 (by rw [hg1]; decide), sideA_of_ne e2 (by rw [hg3]; decide)]
    by_cases hxi : x.op = Op.insert
    · rw [sideA_of_eq x hxi,
        sideA_of_eq ⟨x.op, x.text.drop e2.text.length ++ e2.text⟩ hxi]
      simp [List.append_assoc]
    · rw [sideA_of_ne x hxi,
        sideA_of_ne ⟨x.op, x.text.drop e2.text.length ++ e2.text⟩ hxi]
      conv_rhs => rw [hx]
      simp [List.append_assoc]
  | case3 fuel e1 x e2 rest hg hnL hnR ih =>
    simp only [shiftPassAux, if_pos hg, if_neg hnL, if_neg hnR]
    show textA (e1 :: (shiftPassAux fuel (x :: e2 :: rest)).1) = textA (e1 :: x :: e2 :: rest)
    rw [textA_cons, ih]
    simp [textA_cons]
  | case4 fuel e1 x e2 rest hg ih =>
    simp only [shiftPassAux, if_neg hg]
    show textA (e1 :: (shiftPassAux fuel (x :: e2 :: rest)).1) = textA (e1 :: x :: e2 :: rest)
    rw [textA_cons, ih]
    simp [textA_cons]
  | case5 t d hne =>
    have hdone : shiftPassAux t d = (d, false) := by
      match t, d, hne with
      | 0, d, _ => rfl
      | t + 1, [], _ => rfl
      | t + 1, [a], _ => rfl
      | t + 1, [a, b], _ => rfl
      | t + 1, a :: b :: c :: r, hne => exact absurd rfl (hne t a b c r rfl)
    rw [hdone]

theorem textA_shiftPass (d : Diff) : textA (shiftPass d).1 = textA d :=
  textA_shiftPassAux d.length d

theorem textB_shiftPassAux (fuel : Nat) (d : Diff) :
    textB (shiftPassAux fuel d).1 = textB d := by
  induction fuel, d using shiftPassAux.induct with
  | case1 fuel e1 x e2 rest hg hL ih =>
    obtain ⟨hg1, hg2, hg3⟩ := hg
    have hx : x.text = x.text.take (x.text.length - e1.text.length) ++ e1.text := by
      conv_lhs => rw [← List.take_append_drop (x.text.length - e1.text.length) x.text]
      rw [hL.2]
    simp only [shiftPassAux, if_pos (⟨hg1, hg2, hg3⟩ : e1.op = Op.equal ∧ x.op ≠ Op.equal ∧
      e2.op = Op.equal), if_pos hL]
    show textB (⟨x.op, e1.text ++ x.text.take (x.text.length - e1.text.length)⟩ ::
        (shiftPassAux fuel (⟨Op.equal, e1.text ++ e2.text⟩ :: rest)).1)
      = textB (e1 :: x :: e2 :: rest)
    rw [textB_cons, ih, textB_cons, sideB_equal, textB_cons, textB_cons, textB_cons,
      sideB_of_ne e1 (by rw [hg1]; decide), sideB_of_ne e2 (by rw [hg3]; decide)]
    by_cases hxi : x.op = Op.delete
    · rw [sideB_of_eq x hxi,
        sideB_of_eq ⟨x.op, e1.text ++ x.text.take (x.text.length - e1.text.length)⟩ hxi]
      simp [List.append_assoc]
    · rw [sideB_of_ne x hxi,
        sideB_of_ne ⟨x.op, e1.text ++ x.text.take (x.text.length - e1.text.length)⟩ hxi]
      conv_rhs => rw [hx]
      simp [List.append_assoc]
  | case2 fuel e1 x e2 rest hg hnL hR ih =>
    obtain ⟨hg1, hg2, hg3⟩ := hg
    have hx : x.text = e2.text ++ x.text.drop e2.text.length := by
      conv_lhs => rw [← List.take_append_drop e2.text.length x.text]
      rw [hR.2]
    simp only [shiftPassAux, if_pos (⟨hg1, hg2, hg3⟩ : e1.op = Op.equal ∧ x.op ≠ Op.equal ∧
      e2.op = Op.equal), if_neg hnL, if_pos hR]
    show textB (⟨Op.equal, e1.text ++ e2.text⟩ ::
        ⟨x.op, x.text.drop e2.text.length ++ e2.text⟩ :: (shiftPassAux fuel rest).1)
      = textB (e1 :: x :: e2 :: rest)
    rw [textB_cons, sideB_equal, textB_cons, ih, textB_cons, textB_cons, textB_cons,
      sideB_of_ne e1 (by rw [hg1]; decide), sideB_of_ne e2 (by rw [hg3]; decide)]
    by_cases hxi : x.op = Op.delete
    · rw [sideB_of_eq x hxi,
        sideB_of_eq ⟨x.op, x.text.drop e2.text.length ++ e2.text⟩ hxi]
      simp [List.append_assoc]
    · rw [sideB_of_ne x hxi,
        sideB_of_ne ⟨x.op, x.text.drop e2.text.length ++ e2.text⟩ hxi]
      conv_rhs => rw [hx]
      simp [List.append_assoc]
  | case3 fuel e1 x e2 rest hg hnL hnR ih =>
    simp only [shiftPassAux, if_pos hg, if_neg hnL, if_neg hnR]
    show textB (e1 :: (shiftPassAux fuel (x :: e2 :: rest)).1) = textB (e1 :: x :: e2 :: rest)
    rw [textB_cons, ih]
    simp [textB_cons]
  | case4 fuel e1 x e2 rest hg ih =>
    simp only [shiftPassAux, if_neg hg]
    show textB (e1 :: (shiftPassAux fuel (x :: e2 :: rest)).1) = textB (e1 :: x :: e2 :: rest)
    rw [textB_cons, ih]
    simp [textB_cons]
  | case5 t d hne =>
    have hdone : shiftPassAux t d = (d, false) := by
      match t, d, hne with
      | 0, d, _ => rfl
      | t + 1, [], _ => rfl
      | t + 1, [a], _ => rfl
      | t + 1, [a, b], _ => rfl
      | t + 1, a :: b :: c :: r, hne => exact absurd rfl (hne t a b c r rfl)
    rw [hdone]

theorem textB_shiftPass (d : Diff) : textB (shiftPass d).1 = textB d :=
  textB_shiftPassAux d.length d

theorem textA_cleanupMergeAux : ∀ (fuel : Nat) (d : Diff),
    textA (cleanupMergeAux fuel d) = textA d := by
  intro fuel
  induction fuel with
  | zero => intro d; rw [cleanupMergeAux, textA_coalesce, textA_mergePass1, List.nil_append]
  | succ n ih =>
    intro d
    rw [cleanupMergeAux]
    by_cases hb : (shiftPass (coalesce (mergePass1 [] [] d))).2 = true
    · simp [hb, ih, textA_shiftPass, textA_coalesce, textA_mergePass1]
    · simp [hb, textA_coalesce, textA_mergePass1]

theorem textB_cleanupMergeAux : ∀ (fuel : Nat) (d : Diff),
    textB (cleanupMergeAux fuel d) = textB d := by
  intro fuel
  induction fuel with
  | zero => intro d; rw [cleanupMergeAux, textB_coalesce, textB_mergePass1, List.nil_append]
  | succ n ih =>
    intro d
    rw [cleanupMergeAux]
    by_cases hb : (shiftPass (coalesce (mergePass1 [] [] d))).2 = true
    · simp [hb, ih, textB_shiftPass, textB_coalesce, textB_mergePass1]
    · simp [hb, textB_coalesce, textB_mergePass1]

theorem textA_cleanupMerge (d : Diff) : textA (diff_cleanupMerge d) = textA d :=
  textA_cleanupMergeAux _ d

theorem textB_cleanupMerge (d : Diff) : textB (diff_cleanupMerge d) = textB d :=
  textB_cleanupMergeAux _ d

theorem getLast?_decomp : ∀ (l : Text) (c : Char), l.getLast? = some c → l.dropLast ++ [c] = l := by
  intro l
  induction l with
  | nil => intro c h; simp [List.getLast?] at h
  | cons a as ih =>
    intro c h
    cases as with
    | nil => simp [List.getLast?] at h; simp [h]
    | cons b bs =>
      have h2 : (b :: bs).getLast? = some c := by
        simpa [List.getLast?_cons_cons] using h
      have := ih c h2
      simp [List.dropLast_cons_of_ne_nil, this]

theorem head?_decomp : ∀ (l : Text) (c : Char), l.head? = some c → c :: l.drop 1 = l := by
  intro l
  induction l with
  | nil => intro c h; simp at h
  | cons a as _ =>
    intro c h
    simp at h
    simp [h]

theorem shiftLeftCfg_recombine (a t b a' t' b' : Text)
    (h : shiftLeftCfg a t b = some (a', t', b')) :
    a' ++ b' = a ++ b ∧ a' ++ t' ++ b' = a ++ t ++ b := by
  unfold shiftLeftCfg at h
  match ha : a.getLast?, ht : t.getLast? with
  | some c, some c' =>
    rw [ha, ht] at h
    have h' : (if c = c' then some (a.dropLast, c :: t.dropLast, c :: b) else none)
        = some (a', t', b') := h
    by_cases hc : c = c'
    · rw [if_pos hc] at h'
      simp only [Option.some.injEq, Prod.mk.injEq] at h'
      obtain ⟨h1, h2, h3⟩ := h'
      subst h1; subst h2; subst h3
      have hda := getLast?_decomp a c ha
      have hdt := getLast?_decomp t c' ht
      subst hc
      constructor
      · conv_rhs => rw [← hda]
        simp
      · conv_rhs => rw [← hda, ← hdt]
        simp
    · rw [if_neg hc] at h'; exact absurd h' (by simp)
  | some c, none => rw [ha, ht] at h; exact absurd h (by simp)
  | none, some c' => rw [ha, ht] at h; exact absurd h (by simp)
  | none, none => rw [ha, ht] at h; exact absurd h (by simp)

theorem shiftRightCfg_recombine (a t b a' t' b' : Text)
    (h : shiftRightCfg a t b = some (a', t', b')) :
    a' ++ b' = a ++ b ∧ a' ++ t' ++ b' = a ++ t ++ b := by
  unfold shiftRightCfg at h
  match hb : b.head?, ht : t.head? with
  | some c, some c' =>
    rw [hb, ht] at h
    have h' : (if c = c' then some (a ++ [c], t.drop 1 ++ [c], b.drop 1) else none)
        = some (a', t', b') := h
    by_cases hc : c = c'
    · rw [if_pos hc] at h'
      simp only [Option.some.injEq, Prod.mk.injEq] at h'
      obtain ⟨h1, h2, h3⟩ := h'
      subst h1; subst h2; subst h3
      have hdb := head?_decomp b c hb
      have hdt := head?_decomp t c' ht
      subst hc
      constructor
      · conv_rhs => rw [← hdb]
        simp
      · conv_rhs => rw [← hdb, ← hdt]
        simp
    · rw [if_neg hc] at h'; exact absurd h' (by simp)
  | some c, none => rw [hb, ht] at h; exact absurd h (by simp)
  | none, some c' => rw [hb, ht] at h; exact absurd h (by simp)
  | none, none => rw [hb, ht] at h; exact absurd h (by simp)

theorem bestShift_cases (a t b : Text) :
    bestShift a t b = (a, t, b) ∨ shiftLeftCfg a t b = some (bestShift a t b) ∨
      shiftRightCfg a t b = some (bestShift a t b) := by
  simp only [bestShift]
  split
  · match hcl : shiftLeftCfg a t b with
    | some c => right; left; rfl
    | none => left; rfl
  · split
    · match hcr : shiftRightCfg a t b with
      | some c => right; right; rfl
      | none => left; rfl
    · left; rfl

theorem bestShift_recombine (a t b : Text) :
    (bestShift a t b).1 ++ (bestShift a t b).2.2 = a ++ b ∧
      (bestShift a t b).1 ++ (bestShift a t b).2.1 ++ (bestShift a t b).2.2 = a ++ t ++ b := by
  rcases bestShift_cases a t b with h | h | h
  · rw [h]
    exact ⟨rfl, rfl⟩
  · exact shiftLeftCfg_recombine a t b _ _ _ h
  · exact shiftRightCfg_recombine a t b _ _ _ h

theorem textA_alignOnceAux (fuel : Nat) (d : Diff) : textA (alignOnceAux fuel d) = textA d := by
  induction fuel, d using alignOnceAux.induct with
  | case1 fuel e1 x e2 rest hg c ih =>
    have hc : c = bestShift e1.text x.text e2.text := rfl
    rw [hc] at ih
    have hre := bestShift_recombine e1.text x.text e2.text
    simp only [alignOnceAux, if_pos hg]
    show textA (⟨Op.equal, (bestShift e1.text x.text e2.text).1⟩ ::
        ⟨x.op, (bestShift e1.text x.text e2.text).2.1⟩ ::
        alignOnceAux fuel (⟨Op.equal, (bestShift e1.text x.text e2.text).2.2⟩ :: rest)) =
      textA (e1 :: x :: e2 :: rest)
    simp only [textA_cons, sideA_equal]
    rw [ih]
    simp only [textA_cons, sideA_equal,
      sideA_of_ne e1 (by rw [hg.1]; decide), sideA_of_ne e2 (by rw [hg.2.2]; decide)]
    by_cases hxi : x.op = Op.insert
    · rw [sideA_of_eq x hxi,
        sideA_of_eq ⟨x.op, (bestShift e1.text x.text e2.text).2.1⟩ hxi]
      simp only [List.nil_append, ← List.append_assoc]
      rw [hre.1]
    · rw [sideA_of_ne x hxi,
        sideA_of_ne ⟨x.op, (bestShift e1.text x.text e2.text).2.1⟩ hxi]
      simp only [← List.append_assoc]
      rw [hre.2]
  | case2 fuel e1 x e2 rest hg ih =>
    simp only [alignOnceAux, if_neg hg]
    show textA (e1 :: alignOnceAux fuel (x :: e2 :: rest)) = textA (e1 :: x :: e2 :: rest)
    rw [textA_cons, ih]
    simp [textA_cons]
  | case3 t d hne =>
    have hdone : alignOnceAux t d = d := by
      match t, d, hne with
      | 0, d, _ => rfl
      | t + 1, [], _ => rfl
      | t + 1, [a], _ => rfl
      | t + 1, [a, b], _ => rfl
      | t + 1, a :: b :: cc :: r, hne => exact absurd rfl (hne t a b cc r rfl)
    rw [hdone]

theorem textA_alignOnce (d : Diff) : textA (alignOnce d) = textA d :=
  textA_alignOnceAux d.length d

theorem textB_alignOnceAux (fuel : Nat) (d : Diff) : textB (alignOnceAux fuel d) = textB d := by
  induction fuel, d using alignOnceAux.induct with
  | case1 fuel e1 x e2 rest hg c ih =>
    have hc : c = bestShift e1.text x.text e2.text := rfl
    rw [hc] at ih
    have hre := bestShift_recombine e1.text x.text e2.text
    simp only [alignOnceAux, if_pos hg]
    show textB (⟨Op.equal, (bestShift e1.text x.text e2.text).1⟩ ::
        ⟨x.op, (bestShift e1.text x.text e2.text).2.1⟩ ::
        alignOnceAux fuel (⟨Op.equal, (bestShift e1.text x.text e2.text).2.2⟩ :: rest)) =
      textB (e1 :: x :: e2 :: rest)
    simp only [textB_cons, sideB_equal]
    rw [ih]
    simp only [textB_cons, sideB_equal,
      sideB_of_ne e1 (by rw [hg.1]; decide), sideB_of_ne e2 (by rw [hg.2.2]; decide)]
    by_cases hxi : x.op = Op.delete
    · rw [sideB_of_eq x hxi,
        sideB_of_eq ⟨x.op, (bestShift e1.text x.text e2.text).2.1⟩ hxi]
      simp only [List.nil_append, ← List.append_assoc]
      rw [hre.1]
    · rw [sideB_of_ne x hxi,
        sideB_of_ne ⟨x.op, (bestShift e1.text x.text e2.text).2.1⟩ hxi]
      simp only [← List.append_assoc]
      rw [hre.2]
  | case2 fuel e1 x e2 rest hg ih =>
    simp only [alignOnceAux, if_neg hg]
    show textB (e1 :: alignOnceAux fuel (x :: e2 :: rest)) = textB (e1 :: x :: e2 :: rest)
    rw [textB_cons, ih]
    simp [textB_cons]
  | case3 t d hne =>
    have hdone : alignOnceAux t d = d := by
      match t, d, hne with
      | 0, d, _ => rfl
      | t + 1, [], _ => rfl
      | t + 1, [a], _ => rfl
      | t + 1, [a, b], _ => rfl
      | t + 1, a :: b :: cc :: r, hne => exact absurd rfl (hne t a b cc r rfl)
    rw [hdone]

theorem textB_alignOnce (d : Diff) : textB (alignOnce d) = textB d :=
  textB_alignOnceAux d.length d

theorem textA_elimShortEqAux (fuel : Nat) (d : Diff) :
    textA (elimShortEqAux fuel d) = textA d := by
  induction fuel, d using elimShortEqAux.induct with
  | case1 fuel p e n rest hg ih =>
    simp only [elimShortEqAux, if_pos hg]
    show textA (p :: ⟨Op.delete, e.text⟩ :: ⟨Op.insert, e.text⟩ :: elimShortEqAux fuel (n :: rest))
      = textA (p :: e :: n :: rest)
    simp only [textA_cons, sideA_del, sideA_ins, sideA_of_ne e (by rw [hg.1]; decide), ih,
      List.nil_append]
  | case2 fuel p e n rest hg ih =>
    simp only [elimShortEqAux, if_neg hg]
    show textA (p :: elimShortEqAux fuel (e :: n :: rest)) = textA (p :: e :: n :: rest)
    rw [textA_cons, ih]
    simp [textA_cons]
  | case3 t d hne =>
    have hdone : elimShortEqAux t d = d := by
      match t, d, hne with
      | 0, d, _ => rfl
      | t + 1, [], _ => rfl
      | t + 1, [a], _ => rfl
      | t + 1, [a, b], _ => rfl
      | t + 1, a :: b :: cc :: r, hne => exact absurd rfl (hne t a b cc r rfl)
    rw [hdone]

theorem textA_elimShortEq (d : Diff) : textA (elimShortEq d) = textA d :=
  textA_elimShortEqAux d.length d

theorem textB_elimShortEqAux (fuel : Nat) (d : Diff) :
    textB (elimShortEqAux fuel d) = textB d := by
  induction fuel, d using elimShortEqAux.induct with
  | case1 fuel p e n rest hg ih =>
    simp only [elimShortEqAux, if_pos hg]
    show textB (p :: ⟨Op.delete, e.text⟩ :: ⟨Op.insert, e.text⟩ :: elimShortEqAux fuel (n :: rest))
      = textB (p :: e :: n :: rest)
    simp only [textB_cons, sideB_del, sideB_ins, sideB_of_ne e (by rw [hg.1]; decide), ih,
      List.nil_append]
  | case2 fuel p e n rest hg ih =>
    simp only [elimShortEqAux, if_neg hg]
    show textB (p :: elimShortEqAux fuel (e :: n :: rest)) = textB (p :: e :: n :: rest)
    rw [textB_cons, ih]
    simp [textB_cons]
  | case3 t d hne =>
    have hdone : elimShortEqAux t d = d := by
      match t, d, hne with
      | 0, d, _ => rfl
      | t + 1, [], _ => rfl
      | t + 1, [a], _ => rfl
      | t + 1, [a, b], _ => rfl
      | t + 1, a :: b :: cc :: r, hne => exact absurd rfl (hne t a b cc r rfl)
    rw [hdone]

theorem textB_elimShortEq (d : Diff) : textB (elimShortEq d) = textB d :=
  textB_elimShortEqAux d.length d

theorem textA_cleanupSemantic (d : Diff) : textA (diff_cleanupSemantic d) = textA d := by
  rw [diff_cleanupSemantic, textA_cleanupMerge, textA_elimShortEq, textA_alignOnce]

theorem textB_cleanupSemantic (d : Diff) : textB (diff_cleanupSemantic d) = textB d := by
  rw [diff_cleanupSemantic, textB_cleanupMerge, textB_elimShortEq, textB_alignOnce]

theorem take_mid_drop (l : Text) (i k : Nat) :
    l.take i ++ ((l.drop i).take k ++ l.drop (i + k)) = l := by
  have h : l.drop (i + k) = (l.drop i).drop k := by
    rw [List.drop_drop, Nat.add_comm]
  rw [h, List.take_append_drop, List.take_append_drop]

theorem halfMatchSplit_recombine (lng sht : Text) (i j len : Nat) (sw : Bool)
    (a1 a2 b1 b2 m : Text) (h : halfMatchSplit lng sht i j len sw = some (a1, a2, b1, b2, m)) :
    (sw = false → lng = a1 ++ (m ++ a2) ∧ sht = b1 ++ (m ++ b2)) ∧
      (sw = true → sht = a1 ++ (m ++ a2) ∧ lng = b1 ++ (m ++ b2)) := by
  unfold halfMatchSplit at h
  by_cases hg : (lng.drop i).take len = (sht.drop j).take len
  · rw [if_pos hg] at h
    cases sw with
    | false =>
      rw [if_neg (by simp)] at h
      simp only [Option.some.injEq, Prod.mk.injEq] at h
      obtain ⟨h1, h2, h3, h4, h5⟩ := h
      subst h1; subst h2; subst h3; subst h4; subst h5
      refine ⟨fun _ => ⟨(take_mid_drop lng i len).symm, ?_⟩, fun hh => by simp at hh⟩
      rw [hg]
      exact (take_mid_drop sht j len).symm
    | true =>
      rw [if_pos rfl] at h
      simp only [Option.some.injEq, Prod.mk.injEq] at h
      obtain ⟨h1, h2, h3, h4, h5⟩ := h
      subst h1; subst h2; subst h3; subst h4; subst h5
      refine ⟨fun hh => by simp at hh, fun _ => ⟨?_, (take_mid_drop lng i len).symm⟩⟩
      rw [hg]
      exact (take_mid_drop sht j len).symm
  · rw [if_neg hg] at h
    exact absurd h (by simp)

theorem halfMatch_recombine (a b a1 a2 b1 b2 m : Text)
    (h : diff_halfMatch a b = some (a1, a2, b1, b2, m)) :
    a = a1 ++ (m ++ a2) ∧ b = b1 ++ (m ++ b2) := by
  unfold diff_halfMatch at h
  by_cases hsw : b.length > a.length
  · rw [if_pos hsw] at h
    by_cases hth : b.length > 10 ∧ a.length * 4 ≥ b.length
    · rw [if_pos hth] at h
      match hb : bestHalfAnchor b a with
      | some (i, j, len) =>
        rw [hb] at h
        have h' : (if len * 2 ≥ b.length then halfMatchSplit b a i j len true else none)
            = some (a1, a2, b1, b2, m) := h
        by_cases hl : len * 2 ≥ b.length
        · rw [if_pos hl] at h'
          have := (halfMatchSplit_recombine b a i j len true a1 a2 b1 b2 m h').2 rfl
          exact ⟨this.1, this.2⟩
        · rw [if_neg hl] at h'; exact absurd h' (by simp)
      | none => rw [hb] at h; exact absurd h (by simp)
    · rw [if_neg hth] at h; exact absurd h (by simp)
  · rw [if_neg hsw] at h
    by_cases hth : a.length > 10 ∧ b.length * 4 ≥ a.length
    · rw [if_pos hth] at h
      match hb : bestHalfAnchor a b with
      | some (i, j, len) =>
        rw [hb] at h
        have h' : (if len * 2 ≥ a.length then halfMatchSplit a b i j len false else none)
            = some (a1, a2, b1, b2, m) := h
        by_cases hl : len * 2 ≥ a.length
        · rw [if_pos hl] at h'
          exact (halfMatchSplit_recombine a b i j len false a1 a2 b1 b2 m h').1 rfl
        · rw [if_neg hl] at h'; exact absurd h' (by simp)
      | none => rw [hb] at h; exact absurd h (by simp)
    · rw [if_neg hth] at h; exact absurd h (by simp)

theorem textA_dropEmpties (d : Diff) : textA (dropEmpties d) = textA d := by
  induction d with
  | nil => rfl
  | cons e rest ih =>
    by_cases ht : e.text = []
    · have hA : sideA e = [] := by simp [sideA, ht]
      simp [dropEmpties, List.filter, ht, textA_cons, hA]
      simpa [dropEmpties] using ih
    · simp only [dropEmpties, List.filter]
      have : (!e.text.isEmpty) = true := by
        simp [List.isEmpty_iff, ht]
      rw [this]
      rw [textA_cons, textA_cons]
      simpa [dropEmpties] using congrArg (sideA e ++ ·) ih

theorem textB_dropEmpties (d : Diff) : textB (dropEmpties d) = textB d := by
  induction d with
  | nil => rfl
  | cons e rest ih =>
    by_cases ht : e.text = []
    · have hB : sideB e = [] := by simp [sideB, ht]
      simp [dropEmpties, List.filter, ht, textB_cons, hB]
      simpa [dropEmpties] using ih
    · simp only [dropEmpties, List.filter]
      have : (!e.text.isEmpty) = true := by
        simp [List.isEmpty_iff, ht]
      rw [this]
      rw [textB_cons, textB_cons]
      simpa [dropEmpties] using congrArg (sideB e ++ ·) ih

theorem diffAfterContain_reconstructs (rec : Text → Text → Diff)
    (hrec : ∀ x y, textA (rec x y) = x ∧ textB (rec x y) = y) (a b : Text) :
    textA (diffAfterContain rec a b) = a ∧ textB (diffAfterContain rec a b) = b := by
  unfold diffAfterContain
  by_cases hmin : min a.length b.length = 1
  · rw [if_pos hmin]
    constructor <;> simp [textA_cons, textB_cons, textA_nil, textB_nil, sideA_del, sideA_ins,
      sideB_del, sideB_ins]
  · rw [if_neg hmin]
    match hh : diff_halfMatch a b with
    | some (a1, a2, b1, b2, m) =>
      obtain ⟨hA, hB⟩ := halfMatch_recombine a b a1 a2 b1 b2 m hh
      constructor
      · rw [textA_append, textA_cons, sideA_equal, (hrec a1 b1).1, (hrec a2 b2).1]
        exact hA.symm
      · rw [textB_append, textB_cons, sideB_equal, (hrec a1 b1).2, (hrec a2 b2).2]
        exact hB.symm
    | none =>
      match hb : diff_bisect a b with
      | some (x, y) =>
        constructor
        · rw [textA_append, (hrec (a.take x) (b.take y)).1, (hrec (a.drop x) (b.drop y)).1,
            List.take_append_drop]
        · rw [textB_append, (hrec (a.take x) (b.take y)).2, (hrec (a.drop x) (b.drop y)).2,
            List.take_append_drop]
      | none =>
        constructor <;>
          simp [textA_cons, textB_cons, textA_nil, textB_nil, sideA_del, sideA_ins,
            sideB_del, sideB_ins]

theorem diffComputeWith_reconstructs (rec : Text → Text → Diff)
    (hrec : ∀ x y, textA (rec x y) = x ∧ textB (rec x y) = y) (a b : Text) :
    textA (diffComputeWith rec a b) = a ∧ textB (diffComputeWith rec a b) = b := by
  unfold diffComputeWith
  by_cases ha : a = []
  · rw [if_pos ha]
    by_cases hb : b = []
    · rw [if_pos hb]; subst ha; subst hb; exact ⟨rfl, rfl⟩
    · rw [if_neg hb]; subst ha
      constructor <;> simp [textA_cons, textB_cons, textA_nil, textB_nil, sideA_ins, sideB_ins]
  · rw [if_neg ha]
    by_cases hb : b = []
    · rw [if_pos hb]; subst hb
      constructor <;> simp [textA_cons, textB_cons, textA_nil, textB_nil, sideA_del, sideB_del]
    · rw [if_neg hb]
      by_cases hl : a.length ≤ b.length
      · rw [if_pos hl]
        match hio : indexOfSub a b with
        | some i =>
          have hspec := indexOfSub_spec a b i hio
          constructor
          · rw [textA_dropEmpties]
            simp [textA_cons, textA_nil, sideA_equal, sideA_ins]
          · rw [textB_dropEmpties]
            simp only [textB_cons, textB_nil, sideB_equal, sideB_ins, List.append_nil]
            conv_rhs => rw [← take_mid_drop b i a.length, hspec]
        | none => exact diffAfterContain_reconstructs rec hrec a b
      · rw [if_neg hl]
        match hio : indexOfSub b a with
        | some i =>
          have hspec := indexOfSub_spec b a i hio
          constructor
          · rw [textA_dropEmpties]
            simp only [textA_cons, textA_nil, sideA_equal, sideA_del, List.append_nil]
            conv_rhs => rw [← take_mid_drop a i b.length, hspec]
          · rw [textB_dropEmpties]
            simp [textB_cons, textB_nil, sideB_equal, sideB_del]
        | none => exact diffAfterContain_reconstructs rec hrec a b

theorem trim_recombine_A (a b : Text) : commonPre a b ++ (trimA a b ++ trimSuf a b) = a := by
  have h1 := commonPre_append_left a b
  have h2 := commonSuf_append_left (a.drop (commonPre a b).length) (b.drop (commonPre a b).length)
  unfold trimA trimSuf
  rw [h2]
  exact h1

theorem trim_recombine_B (a b : Text) : commonPre a b ++ (trimB a b ++ trimSuf a b) = b := by
  have h1 := commonPre_append_right a b
  have h2 := commonSuf_append_right (a.drop (commonPre a b).length) (b.drop (commonPre a b).length)
  unfold trimB trimSuf
  rw [h2]
  exact h1

theorem diffStripped_reconstructs (rec : Text → Text → Diff)
    (hrec : ∀ x y, textA (rec x y) = x ∧ textB (rec x y) = y) (a b : Text) :
    textA (diffStripped rec a b) = a ∧ textB (diffStripped rec a b) = b := by
  have hc := diffComputeWith_reconstructs rec hrec (trimA a b) (trimB a b)
  have hp : textA (if commonPre a b = [] then ([] : Diff) else [⟨Op.equal, commonPre a b⟩])
      = commonPre a b := by
    by_cases hp : commonPre a b = [] <;> simp [hp, textA_cons, textA_nil, sideA_equal]
  have hpB : textB (if commonPre a b = [] then ([] : Diff) else [⟨Op.equal, commonPre a b⟩])
      = commonPre a b := by
    by_cases hp : commonPre a b = [] <;> simp [hp, textB_cons, textB_nil, sideB_equal]
  have hs : textA (if trimSuf a b = [] then ([] : Diff) else [⟨Op.equal, trimSuf a b⟩])
      = trimSuf a b := by
    by_cases hq : trimSuf a b = [] <;> simp [hq, textA_cons, textA_nil, sideA_equal]
  have hsB : textB (if trimSuf a b = [] then ([] : Diff) else [⟨Op.equal, trimSuf a b⟩])
      = trimSuf a b := by
    by_cases hq : trimSuf a b = [] <;> simp [hq, textB_cons, textB_nil, sideB_equal]
  unfold diffStripped
  constructor
  · rw [textA_cleanupMerge, textA_append, textA_append, hp, hs, hc.1, List.append_assoc]
    exact trim_recombine_A a b
  · rw [textB_cleanupMerge, textB_append, textB_append, hpB, hsB, hc.2, List.append_assoc]
    exact trim_recombine_B a b

theorem diffMainAux_reconstructs : ∀ (fuel : Nat) (a b : Text),
    textA (diffMainAux fuel a b) = a ∧ textB (diffMainAux fuel a b) = b := by
  intro fuel
  induction fuel with
  | zero =>
    intro a b
    constructor <;>
    · by_cases ha : a = [] <;> by_cases hb : b = [] <;>
        simp [diffMainAux, ha, hb, textA_append, textB_append, textA_cons, textB_cons,
          sideA_del, sideA_ins, sideB_del, sideB_ins]
  | succ n ih =>
    intro a b
    rw [diffMainAux]
    by_cases hab : a = b
    · rw [if_pos hab]
      subst hab
      by_cases ha : a = []
      · simp [ha]
      · rw [if_neg ha]
        constructor <;> simp [textA_cons, textB_cons, sideA_equal, sideB_equal]
    · rw [if_neg hab]
      exact diffStripped_reconstructs _ (fun x y => ih x y) a b

/-- C1 helper: the diff operation reconstructs both inputs. -/
theorem diffOp_reconstructs (a b : Text) : textA (diffOp a b) = a ∧ textB (diffOp a b) = b := by
  unfold diffOp diff_main
  rw [textA_cleanupSemantic, textB_cleanupSemantic]
  exact diffMainAux_reconstructs _ a b

theorem coalesce_nonempty : ∀ (d : Diff) (g : EditOp), g ∈ coalesce d → g.text ≠ [] := by
  intro d
  induction d with
  | nil => intro g hg; simp [coalesce] at hg
  | cons e rest ih =>
    intro g hg
    by_cases ht : e.text = []
    · rw [coalesce, if_pos ht] at hg
      exact ih g hg
    · rw [coalesce, if_neg ht] at hg
      match hc : coalesce rest with
      | [] =>
        rw [hc] at hg
        have hg' : g ∈ [e] := hg
        simp at hg'
        rw [hg']
        exact ht
      | f :: fs =>
        rw [hc] at hg
        have hg' : g ∈ (if e.op = f.op then (⟨e.op, e.text ++ f.text⟩ : EditOp) :: fs
            else e :: f :: fs) := hg
        by_cases hop : e.op = f.op
        · rw [if_pos hop] at hg'
          rcases List.mem_cons.mp hg' with h | h
          · rw [h]
            simp [ht]
          · exact ih g (hc ▸ List.mem_cons_of_mem f h)
        · rw [if_neg hop] at hg'
          rcases List.mem_cons.mp hg' with h | h
          · rw [h]; exact ht
          · exact ih g (hc ▸ h)

theorem coalesce_chain_ne : ∀ d : Diff,
    List.Chain' (fun x y : EditOp => x.op ≠ y.op) (coalesce d) := by
  intro d
  induction d with
  | nil => simp [coalesce]
  | cons e rest ih =>
    by_cases ht : e.text = []
    · rw [coalesce, if_pos ht]
      exact ih
    · rw [coalesce, if_neg ht]
      match hc : coalesce rest with
      | [] => exact List.chain'_singleton e
      | f :: fs =>
        have ihc : List.Chain' (fun x y : EditOp => x.op ≠ y.op) (f :: fs) := hc ▸ ih
        show List.Chain' _ (if e.op = f.op then (⟨e.op, e.text ++ f.text⟩ : EditOp) :: fs
            else e :: f :: fs)
        by_cases hop : e.op = f.op
        · rw [if_pos hop]
          rw [List.chain'_cons'] at ihc ⊢
          refine ⟨fun y hy => ?_, ihc.2⟩
          have : (⟨e.op, e.text ++ f.text⟩ : EditOp).op = f.op := hop
          rw [this]
          exact ihc.1 y hy
        · rw [if_neg hop]
          rw [List.chain'_cons]
          exact ⟨hop, ihc⟩

theorem coalesce_head_op (r : EditOp) (rs : Diff) (hr : r.text ≠ []) :
    ∃ t fs, coalesce (r :: rs) = ⟨r.op, t⟩ :: fs := by
  rw [coalesce, if_neg hr]
  match coalesce rs with
  | [] => exact ⟨r.text, [], rfl⟩
  | f :: fs =>
    by_cases hop : r.op = f.op
    · refine ⟨r.text ++ f.text, fs, ?_⟩
      show (if r.op = f.op then (⟨r.op, r.text ++ f.text⟩ : EditOp) :: fs else r :: f :: fs)
        = ⟨r.op, r.text ++ f.text⟩ :: fs
      rw [if_pos hop]
    · refine ⟨r.text, f :: fs, ?_⟩
      show (if r.op = f.op then (⟨r.op, r.text ++ f.text⟩ : EditOp) :: fs else r :: f :: fs)
        = ⟨r.op, r.text⟩ :: f :: fs
      rw [if_neg hop]

theorem coalesce_chain_T (T : Op → Op → Prop) :
    ∀ d : Diff, (∀ e ∈ d, e.text ≠ []) → List.Chain' (fun x y => T x.op y.op) d →
      List.Chain' (fun x y => T x.op y.op) (coalesce d) := by
  intro d
  induction d with
  | nil => intro _ _; simp [coalesce]
  | cons e rest ih =>
    intro hne hch
    have het : e.text ≠ [] := hne e (by simp)
    have hne' : ∀ e' ∈ rest, e'.text ≠ [] := fun e' he' => hne e' (by simp [he'])
    have hch' := hch.tail
    rw [coalesce, if_neg het]
    match hc : coalesce rest with
    | [] => exact List.chain'_singleton e
    | f :: fs =>
      have ihc : List.Chain' (fun x y => T x.op y.op) (f :: fs) := hc ▸ ih hne' hch'
      show List.Chain' _ (if e.op = f.op then (⟨e.op, e.text ++ f.text⟩ : EditOp) :: fs
          else e :: f :: fs)
      by_cases hop : e.op = f.op
      · rw [if_pos hop]
        rw [List.chain'_cons'] at ihc ⊢
        refine ⟨fun y hy => ?_, ihc.2⟩
        have heq : (⟨e.op, e.text ++ f.text⟩ : EditOp).op = f.op := hop
        rw [heq]
        exact ihc.1 y hy
      · rw [if_neg hop]
        rw [List.chain'_cons]
        refine ⟨?_, ihc⟩
        match rest, hc, hne', hch with
        | r :: rs, hc, hne', hch =>
          have hr : r.text ≠ [] := hne' r (by simp)
          obtain ⟨t, fs', heq⟩ := coalesce_head_op r rs hr
          rw [heq] at hc
          have hf : f = ⟨r.op, t⟩ := (List.cons.injEq _ _ _ _ ▸ hc.symm).1
          have hTer : T e.op r.op := (List.chain'_cons.mp hch).1
          rw [hf]
          exact hTer

theorem coalesce_filterNE : ∀ d : Diff, coalesce (filterNE d) = coalesce d := by
  intro d
  induction d with
  | nil => rfl
  | cons e rest ih =>
    by_cases ht : e.text = []
    · have hb : (!e.text.isEmpty) = false := by simp [List.isEmpty_iff, ht]
      rw [filterNE, List.filter_cons, hb]
      rw [coalesce, if_pos ht, ← ih]
      rfl
    · have hb : (!e.text.isEmpty) = true := by simp [List.isEmpty_iff, ht]
      rw [filterNE, List.filter_cons, hb]
      simp only [if_true]
      rw [coalesce, coalesce, if_neg ht, if_neg ht]
      have : coalesce (List.filter (fun e => !e.text.isEmpty) rest) = coalesce rest := ih
      rw [this]

theorem chain_noID_filter_mergeGroup (del ins : Text) :
    List.Chain' noID (filterNE (mergeGroup del ins)) := by
  unfold mergeGroup filterNE
  simp only [List.filter_cons, List.filter_nil]
  repeat' split
  all_goals simp [List.chain'_cons, List.chain'_singleton, noID]

theorem chain_noID_filter_mergePass1 :
    ∀ (d : Diff) (del ins : Text), List.Chain' noID (filterNE (mergePass1 del ins d)) := by
  intro d
  induction d with
  | nil => intro del ins; exact chain_noID_filter_mergeGroup del ins
  | cons e rest ih =>
    intro del ins
    match he : e.op with
    | Op.delete =>
      have hstep : mergePass1 del ins (e :: rest) = mergePass1 (del ++ e.text) ins rest := by
        simp [mergePass1, he]
      rw [hstep]
      exact ih _ _
    | Op.insert =>
      have hstep : mergePass1 del ins (e :: rest) = mergePass1 del (ins ++ e.text) rest := by
        simp [mergePass1, he]
      rw [hstep]
      exact ih _ _
    | Op.equal =>
      by_cases ht : e.text = []
      · have hstep : mergePass1 del ins (e :: rest) = mergePass1 del ins rest := by
          simp [mergePass1, he, ht]
        rw [hstep]
        exact ih _ _
      · have hstep : mergePass1 del ins (e :: rest)
            = mergeGroup del ins ++ ⟨Op.equal, e.text⟩ :: mergePass1 [] [] rest := by
          simp [mergePass1, he, ht]
        rw [hstep]
        unfold filterNE
        rw [List.filter_append, List.filter_cons]
        have hbt : (!(⟨Op.equal, e.text⟩ : EditOp).text.isEmpty) = true := by
          simp [List.isEmpty_iff, ht]
        rw [if_pos hbt]
        rw [List.chain'_append]
        refine ⟨chain_noID_filter_mergeGroup del ins, ?_, ?_⟩
        · rw [List.chain'_cons']
          exact ⟨fun y _ => by simp [noID], ih [] []⟩
        · intro x _ y hy
          simp only [List.head?_cons, Option.mem_def, Option.some.injEq] at hy
          rw [← hy]
          simp [noID]

theorem cleanupMergeAux_shape : ∀ (fuel : Nat) (d : Diff),
    ∃ y, cleanupMergeAux fuel d = coalesce (mergePass1 [] [] y) := by
  intro fuel
  induction fuel with
  | zero => intro d; exact ⟨d, rfl⟩
  | succ n ih =>
    intro d
    rw [cleanupMergeAux]
    by_cases hb : (shiftPass (coalesce (mergePass1 [] [] d))).2 = true
    · simp only [hb, if_true]
      exact ih _
    · simp only [hb]
      exact ⟨d, by simp⟩

theorem canonical_coalesce_mergePass1 (y : Diff) : Canonical (coalesce (mergePass1 [] [] y)) := by
  refine ⟨fun e he => coalesce_nonempty _ e he, coalesce_chain_ne _, ?_⟩
  rw [← coalesce_filterNE]
  have := coalesce_chain_T (fun o p => ¬(o = Op.insert ∧ p = Op.delete))
    (filterNE (mergePass1 [] [] y))
    (fun e he => by
      rw [filterNE] at he
      have hb := List.of_mem_filter he
      simpa [List.isEmpty_iff] using hb)
    (chain_noID_filter_mergePass1 y [] [])
  exact this

theorem canonical_cleanupMerge (d : Diff) : Canonical (diff_cleanupMerge d) := by
  obtain ⟨y, hy⟩ := cleanupMergeAux_shape (totalLen d + d.length + 1) d
  rw [diff_cleanupMerge, hy]
  exact canonical_coalesce_mergePass1 y

theorem canonical_cleanupSemantic (d : Diff) : Canonical (diff_cleanupSemantic d) := by
  rw [diff_cleanupSemantic]
  exact canonical_cleanupMerge _

theorem diffOp_canonical_aux (a b : Text) : Canonical (diffOp a b) := by
  rw [diffOp]
  exact canonical_cleanupSemantic _

theorem commonPre_nil_left (y : Text) : commonPre [] y = [] := by
  cases y <;> rfl

theorem commonPre_nil_right (x : Text) : commonPre x [] = [] := by
  cases x <;> rfl

theorem commonSuf_nil_left (y : Text) : commonSuf [] y = [] := by
  simp [commonSuf, commonPre_nil_left]

theorem commonSuf_nil_right (x : Text) : commonSuf x [] = [] := by
  simp [commonSuf, commonPre_nil_right]

theorem mergeGroup_nil_nil : mergeGroup [] [] =
    [⟨Op.equal, []⟩, ⟨Op.delete, []⟩, ⟨Op.insert, []⟩, ⟨Op.equal, []⟩] := rfl

theorem mergeGroup_del (X : Text) : mergeGroup X [] =
    [⟨Op.equal, []⟩, ⟨Op.delete, X⟩, ⟨Op.insert, []⟩, ⟨Op.equal, []⟩] := by
  rw [mergeGroup]
  simp [commonPre_nil_right, commonSuf_nil_right]

theorem mergeGroup_ins (X : Text) : mergeGroup [] X =
    [⟨Op.equal, []⟩, ⟨Op.delete, []⟩, ⟨Op.insert, X⟩, ⟨Op.equal, []⟩] := by
  rw [mergeGroup]
  simp [commonPre_nil_left, commonSuf_nil_left]

theorem coalesce_single (e : EditOp) (hX : e.text ≠ []) : coalesce [e] = [e] := by
  simp [coalesce, hX]

theorem cleanupMerge_single (o : Op) (X : Text) (hX : X ≠ []) :
    diff_cleanupMerge [⟨o, X⟩] = [⟨o, X⟩] := by
  have h2 : coalesce (mergePass1 [] [] [⟨o, X⟩]) = [⟨o, X⟩] := by
    match o with
    | Op.equal =>
      have h1 : mergePass1 [] [] [⟨Op.equal, X⟩]
          = mergeGroup [] [] ++ ⟨Op.equal, X⟩ :: mergePass1 [] [] [] := by
        simp [mergePass1, hX]
      rw [h1]
      show coalesce ([⟨Op.equal, []⟩, ⟨Op.delete, []⟩, ⟨Op.insert, []⟩, ⟨Op.equal, []⟩] ++
        ⟨Op.equal, X⟩ ::
          [⟨Op.equal, []⟩, ⟨Op.delete, []⟩, ⟨Op.insert, []⟩, ⟨Op.equal, []⟩]) = [⟨Op.equal, X⟩]
      simp [coalesce, hX]
    | Op.delete =>
      have h1 : mergePass1 [] [] [⟨Op.delete, X⟩] = mergeGroup ([] ++ X) [] := by
        simp [mergePass1]
      rw [h1, List.nil_append, mergeGroup_del]
      simp [coalesce, hX]
    | Op.insert =>
      have h1 : mergePass1 [] [] [⟨Op.insert, X⟩] = mergeGroup [] ([] ++ X) := by
        simp [mergePass1]
      rw [h1, List.nil_append, mergeGroup_ins]
      simp [coalesce, hX]
  have h3 : shiftPass [⟨o, X⟩] = ([⟨o, X⟩], false) := rfl
  rw [diff_cleanupMerge]
  rw [cleanupMergeAux, h2, h3]
  simp

theorem cleanupMerge_nil : diff_cleanupMerge [] = [] := by
  have h2 : coalesce (mergePass1 [] [] []) = [] := by
    show coalesce (mergeGroup [] []) = []
    rw [mergeGroup_nil_nil]
    simp [coalesce]
  have h3 : shiftPass ([] : Diff) = ([], false) := rfl
  rw [diff_cleanupMerge, cleanupMergeAux, h2, h3]
  simp

theorem cleanupSemantic_single (o : Op) (X : Text) (hX : X ≠ []) :
    diff_cleanupSemantic [⟨o, X⟩] = [⟨o, X⟩] := by
  have h1 : alignOnce [⟨o, X⟩] = [⟨o, X⟩] := rfl
  have h2 : elimShortEq [⟨o, X⟩] = [⟨o, X⟩] := rfl
  rw [diff_cleanupSemantic, h1, h2, cleanupMerge_single o X hX]

theorem cleanupSemantic_nil : diff_cleanupSemantic [] = [] := by
  have h1 : alignOnce ([] : Diff) = [] := rfl
  have h2 : elimShortEq ([] : Diff) = [] := rfl
  rw [diff_cleanupSemantic, h1, h2, cleanupMerge_nil]

theorem diffMainAux_succ_eq (n : Nat) (X : Text) :
    diffMainAux (n + 1) X X = if X = [] then [] else [⟨Op.equal, X⟩] := by
  simp [diffMainAux]

theorem diffMainAux_succ_empty_left (n : Nat) (X : Text) (hX : X ≠ []) :
    diffMainAux (n + 1) [] X = [⟨Op.insert, X⟩] := by
  have hne : ¬([] : Text) = X := fun h => hX h.symm
  simp only [diffMainAux, if_neg hne]
  rw [diffStripped]
  have hpre : commonPre [] X = [] := commonPre_nil_left X
  have hsuf : trimSuf [] X = [] := by
    rw [trimSuf, hpre]
    simp [commonSuf_nil_left]
  have hta : trimA [] X = [] := by
    rw [trimA, hpre]
    simp
  have htb : trimB [] X = X := by
    rw [trimB, hpre, hsuf]
    simp
  rw [hpre, hsuf, hta, htb]
  have hcw : diffComputeWith (fun x y => diffMainAux n x y) [] X = [⟨Op.insert, X⟩] := by
    rw [diffComputeWith, if_pos rfl, if_neg hX]
  simp only [if_pos rfl, List.nil_append, List.append_nil, hcw]
  exact cleanupMerge_single Op.insert X hX

theorem diffMainAux_succ_empty_right (n : Nat) (X : Text) (hX : X ≠ []) :
    diffMainAux (n + 1) X [] = [⟨Op.delete, X⟩] := by
  have hne : ¬X = ([] : Text) := hX
  simp only [diffMainAux, if_neg hne]
  rw [diffStripped]
  have hpre : commonPre X [] = [] := commonPre_nil_right X
  have hsuf : trimSuf X [] = [] := by
    rw [trimSuf, hpre]
    simp [commonSuf_nil_right]
  have hta : trimA X [] = X := by
    rw [trimA, hpre, hsuf]
    simp
  have htb : trimB X [] = [] := by
    rw [trimB, hpre]
    simp
  rw [hpre, hsuf, hta, htb]
  have hcw : diffComputeWith (fun x y => diffMainAux n x y) X [] = [⟨Op.delete, X⟩] := by
    rw [diffComputeWith, if_neg hX, if_pos rfl]
  simp only [if_pos rfl, List.nil_append, List.append_nil, hcw]
  exact cleanupMerge_single Op.delete X hX

theorem diffOp_identity_aux (X : Text) : diffOp X X = if X = [] then [] else [⟨Op.equal, X⟩] := by
  rw [diffOp, diff_main]
  have h := diffMainAux_succ_eq (X.length + X.length) X
  rw [h]
  by_cases hX : X = []
  · simp [hX, cleanupSemantic_nil]
  · simp [hX, cleanupSemantic_single Op.equal X hX]

theorem diffOp_empty_left_aux (X : Text) (hX : X ≠ []) : diffOp [] X = [⟨Op.insert, X⟩] := by
  rw [diffOp, diff_main]
  have h := diffMainAux_succ_empty_left (List.length ([] : Text) + X.length) X hX
  rw [h, cleanupSemantic_single Op.insert X hX]

theorem diffOp_empty_right_aux (X : Text) (hX : X ≠ []) : diffOp X [] = [⟨Op.delete, X⟩] := by
  rw [diffOp, diff_main]
  have h := diffMainAux_succ_empty_right (X.length + List.length ([] : Text)) X hX
  rw [h, cleanupSemantic_single Op.delete X hX]

theorem pushDiffs_eq_flat : ∀ d : Diff, pushDiffs d = flatEncoding d := by
  intro d
  induction d with
  | nil => rfl
  | cons e rest ih => simp [pushDiffs, flatEncoding, ih]

theorem pushDiffs_length : ∀ d : Diff, (pushDiffs d).length = 2 * d.length := by
  intro d
  induction d with
  | nil => rfl
  | cons e rest ih =>
    simp [pushDiffs, ih]
    omega

/-- C1: for every pair of text inputs (A, B), the diff returned by the diff
operation reconstructs both inputs: concatenating the texts of its EQUAL and
DELETE ops in order yields A, and concatenating the texts of its EQUAL and
INSERT ops in order yields B. -/
theorem diff_reconstructs_inputs (a b : Text) :
    textA (diffOp a b) = a ∧ textB (diffOp a b) = b :=
  diffOp_reconstructs a b

/-- C2: for every pair of text inputs, the diff returned by the diff operation
is canonical: no op has empty text, no two adjacent ops have the same kind,
and wherever a DELETE op is adjacent to an INSERT op the DELETE comes first
(an INSERT is never immediately followed by a DELETE). -/
theorem diff_canonical (a b : Text) :
    (∀ e ∈ diffOp a b, e.text ≠ []) ∧
      List.Chain' (fun x y => x.op ≠ y.op) (diffOp a b) ∧
      List.Chain' noID (diffOp a b) :=
  diffOp_canonical_aux a b

theorem diff_canonical_witness :
    (⟨Op.delete, ['a']⟩ : EditOp).text ≠ [] ∧ List.Chain' noID (diffOp ['a'] ['b']) :=
  ⟨(diff_canonical ['a'] ['b']).1 ⟨Op.delete, ['a']⟩ (by decide),
    (diff_canonical ['a'] ['b']).2.2⟩

/-- C3: for every pair of text arguments, the value returned to the host by
the diff binding is a single flat sequence alternating op code then text for
each edit op in order, where the op code is -1 for DELETE, 0 for EQUAL and +1
for INSERT; its length is exactly twice the number of edit ops. -/
theorem binding_flat_encoding (a b : Text) :
    luaDiffResult a b = flatEncoding (diffOp a b) ∧
      (luaDiffResult a b).length = 2 * (diffOp a b).length ∧
      opCode Op.delete = -1 ∧ opCode Op.equal = 0 ∧ opCode Op.insert = 1 :=
  ⟨pushDiffs_eq_flat _, pushDiffs_length _, rfl, rfl, rfl⟩

/-- C4: on every invocation the binding computes the diff with the checklines
flag set to false and applies semantic cleanup to the result before flattening
it; what reaches the host is exactly the flattened cleaned diff. -/
theorem binding_checklines_false_cleanup (a b : Text) :
    luaDiffResult a b = pushDiffs (diff_cleanupSemantic (diff_main a b false)) ∧
      diffOp a b = diff_cleanupSemantic (diff_main a b false) :=
  ⟨rfl, rfl⟩

/-- C5: if either of the two string arguments to the diff binding is null or
not provided, the binding fails with InvalidArgument and returns no diff; with
two provided string arguments this error branch is not taken. -/
theorem binding_invalid_argument (a? b? : Option Text) :
    ((a? = none ∨ b? = none) → diffBinding a? b? = Except.error LuaError.invalidArgument) ∧
      (∀ a b, diffBinding (some a) (some b) = Except.ok (luaDiffResult a b)) := by
  constructor
  · rintro (h | h)
    · subst h; rfl
    · subst h
      cases a? with
      | none => rfl
      | some a => rfl
  · intro a b; rfl

theorem binding_invalid_argument_witness :
    diffBinding none (some ['a']) = Except.error LuaError.invalidArgument :=
  (binding_invalid_argument none (some ['a'])).1 (Or.inl rfl)

/-- C6: for every text X, diff(X, X) returns the single-op sequence [EQUAL X]
when X is nonempty, and the empty sequence when X is empty. -/
theorem diff_identity (X : Text) :
    diffOp X X = if X = [] then [] else [⟨Op.equal, X⟩] :=
  diffOp_identity_aux X

/-- C7: for every nonempty text X, diff with an empty first input returns the
single op [INSERT X], and diff with an empty second input returns the single
op [DELETE X]. -/
theorem diff_empty_input (X : Text) (h : X ≠ []) :
    diffOp [] X = [⟨Op.insert, X⟩] ∧ diffOp X [] = [⟨Op.delete, X⟩] :=
  ⟨diffOp_empty_left_aux X h, diffOp_empty_right_aux X h⟩

theorem diff_empty_input_witness :
    diffOp [] ['a'] = [⟨Op.insert, ['a']⟩] ∧ diffOp ['a'] [] = [⟨Op.delete, ['a']⟩] :=
  diff_empty_input ['a'] (by decide)

/-- C8 counterexample: semantic cleanup is not idempotent on every diff.  On
[DELETE "a", DELETE "a", EQUAL "a", DELETE "a"] the first application leaves
[DELETE "aa", EQUAL "a", DELETE "a"] (the elimination sub-pass runs before the
merge pass has combined the two deletions, so the equality does not yet look
short), while the second application eliminates the equality and yields
[EQUAL "a", DELETE "aaa"]. -/
theorem cleanupSemantic_not_idempotent :
    ¬(diff_cleanupSemantic (diff_cleanupSemantic
        [⟨Op.delete, ['a']⟩, ⟨Op.delete, ['a']⟩, ⟨Op.equal, ['a']⟩, ⟨Op.delete, ['a']⟩])
      = diff_cleanupSemantic
        [⟨Op.delete, ['a']⟩, ⟨Op.delete, ['a']⟩, ⟨Op.equal, ['a']⟩, ⟨Op.delete, ['a']⟩]) := by
  decide

/-- C8 (amended): applying semantic cleanup twice is equivalent to applying it
once up to the edit it denotes, though not always syntactically equal: the
second application reconstructs exactly the same pair of texts as the first,
and its result is again canonical. -/
theorem cleanupSemantic_repeat_equivalent (d : Diff) :
    (textA (diff_cleanupSemantic (diff_cleanupSemantic d)) = textA (diff_cleanupSemantic d) ∧
      textB (diff_cleanupSemantic (diff_cleanupSemantic d)) = textB (diff_cleanupSemantic d)) ∧
      Canonical (diff_cleanupSemantic (diff_cleanupSemantic d)) :=
  ⟨⟨textA_cleanupSemantic _, textB_cleanupSemantic _⟩, canonical_cleanupSemantic _⟩

/-- C9: the binding is deterministic and stateless across invocations: the
result of each invocation in a sequence of invocations depends only on that
invocation's own pair of inputs, never on the invocations before (or after)
it. -/
theorem binding_stateless (pre post : List (Text × Text)) (c : Text × Text) :
    runInvocations (pre ++ c :: post)
      = runInvocations pre ++ luaDiffResult c.1 c.2 :: runInvocations post := by
  simp [runInvocations]

/-- C10: the three library entry points are equivalent: the platform-specific
entry points delegate to luaopen_diff, which registers the single diff binding
and returns one value. -/
theorem luaopen_entry_points_equivalent :
    luaopen_file_diff_diff = luaopen_diff ∧ luaopen_file_diff_diffosx = luaopen_diff ∧
      luaopen_diff.1 = diffBinding ∧ luaopen_diff.2 = 1 :=
  ⟨rfl, rfl, rfl, rfl⟩

